import Mathlib

/-!
# Verification of the KeyFrameSystem motion core

Shallow embedding of `src/motion/MotionController.cpp` and
`src/motion/Utils.cpp` (repository `tmasmaliyev/KeyFrameSystem`).

Modelling choices:
* C++ `float` scalars are embedded as exact rationals (`ℚ`); float literals
  such as `0.0001f` become the corresponding exact rational.
* C++ `int` is embedded as `ℤ`; `size_t` sizes as `List.length` cast to `ℤ`
  where the code casts.  All integer divisions executed by the embedded code
  happen on nonnegative operands, where Lean's `Int` division agrees with
  C++ truncating division.
* The GLM library is external to the repository.  Its purely algebraic
  functions (`mat4_cast`, `translate`, matrix product, quaternion
  arithmetic, `mix`, `clamp`) are embedded by their GLM definitions, which
  are rational.  Its transcendental entry points (`sin`, `acos` inside
  `glm::slerp`, the axis-rotation matrices built from `glm::rotate` with
  `glm::radians`, and the Euler-to-quaternion constructor) are abstracted
  as parameters gathered in the `Glm` structure; theorems that depend on
  actual trigonometric facts state them as hypotheses on those parameters.
* Mutation of the `mutable` cache fields of the `const` C++ methods is
  embedded by explicit state passing: `getTransformationMatrix` returns the
  matrix together with the updated controller state.
-/

/-- 3-component vector of rationals, embedding `glm::vec3`. -/
@[ext] structure V3 where
  x : ℚ
  y : ℚ
  z : ℚ
deriving DecidableEq

instance : Add V3 := ⟨fun a b => ⟨a.x + b.x, a.y + b.y, a.z + b.z⟩⟩
instance : Sub V3 := ⟨fun a b => ⟨a.x - b.x, a.y - b.y, a.z - b.z⟩⟩
instance : Neg V3 := ⟨fun a => ⟨-a.x, -a.y, -a.z⟩⟩
instance : SMul ℚ V3 := ⟨fun c a => ⟨c * a.x, c * a.y, c * a.z⟩⟩
instance : Inhabited V3 := ⟨⟨0, 0, 0⟩⟩

theorem V3_add_def (a b : V3) : a + b = ⟨a.x + b.x, a.y + b.y, a.z + b.z⟩ := rfl
theorem V3_sub_def (a b : V3) : a - b = ⟨a.x - b.x, a.y - b.y, a.z - b.z⟩ := rfl
theorem V3_neg_def (a : V3) : -a = ⟨-a.x, -a.y, -a.z⟩ := rfl
theorem V3_smul_def (c : ℚ) (a : V3) : c • a = ⟨c * a.x, c * a.y, c * a.z⟩ := rfl

/-- Quaternion with rational components, embedding `glm::quat`
(components `w, x, y, z`). -/
@[ext] structure Quat where
  w : ℚ
  x : ℚ
  y : ℚ
  z : ℚ
deriving DecidableEq

instance : Inhabited Quat := ⟨⟨1, 0, 0, 0⟩⟩
instance : Neg Quat := ⟨fun q => ⟨-q.w, -q.x, -q.y, -q.z⟩⟩
instance : Add Quat := ⟨fun a b => ⟨a.w + b.w, a.x + b.x, a.y + b.y, a.z + b.z⟩⟩
instance : SMul ℚ Quat := ⟨fun c q => ⟨c * q.w, c * q.x, c * q.y, c * q.z⟩⟩

theorem Quat_neg_def (q : Quat) : -q = ⟨-q.w, -q.x, -q.y, -q.z⟩ := rfl
theorem Quat_add_def (a b : Quat) :
    a + b = ⟨a.w + b.w, a.x + b.x, a.y + b.y, a.z + b.z⟩ := rfl
theorem Quat_smul_def (c : ℚ) (q : Quat) :
    c • q = ⟨c * q.w, c * q.x, c * q.y, c * q.z⟩ := rfl

/-- Componentwise division of a quaternion by a scalar (`glm` `operator/`). -/
def Quat.divScalar (q : Quat) (c : ℚ) : Quat := ⟨q.w / c, q.x / c, q.y / c, q.z / c⟩

/-- Quaternion dot product (`glm::dot`). -/
def Quat.dot (a b : Quat) : ℚ := a.w * b.w + a.x * b.x + a.y * b.y + a.z * b.z

/-- 4×4 rational matrix, embedding `glm::mat4`.  Stored in mathematical
row/column form `mIJ` = row `I`, column `J`; GLM's column-major `m[c][r]`
is entry `mRC` here, so GLM's `translate` places the translation vector in
column 3 and matrix composition is the ordinary product. -/
@[ext] structure M4 where
  m00 : ℚ
  m01 : ℚ
  m02 : ℚ
  m03 : ℚ
  m10 : ℚ
  m11 : ℚ
  m12 : ℚ
  m13 : ℚ
  m20 : ℚ
  m21 : ℚ
  m22 : ℚ
  m23 : ℚ
  m30 : ℚ
  m31 : ℚ
  m32 : ℚ
  m33 : ℚ
deriving DecidableEq

/-- `glm::mat4(1.0f)`, the identity. -/
def M4.identity : M4 :=
  ⟨1, 0, 0, 0,
   0, 1, 0, 0,
   0, 0, 1, 0,
   0, 0, 0, 1⟩

instance : Inhabited M4 := ⟨M4.identity⟩

/-- Matrix product (GLM `operator*` on `mat4`, written in row/column form). -/
def M4.mul (a b : M4) : M4 :=
  ⟨a.m00 * b.m00 + a.m01 * b.m10 + a.m02 * b.m20 + a.m03 * b.m30,
   a.m00 * b.m01 + a.m01 * b.m11 + a.m02 * b.m21 + a.m03 * b.m31,
   a.m00 * b.m02 + a.m01 * b.m12 + a.m02 * b.m22 + a.m03 * b.m32,
   a.m00 * b.m03 + a.m01 * b.m13 + a.m02 * b.m23 + a.m03 * b.m33,
   a.m10 * b.m00 + a.m11 * b.m10 + a.m12 * b.m20 + a.m13 * b.m30,
   a.m10 * b.m01 + a.m11 * b.m11 + a.m12 * b.m21 + a.m13 * b.m31,
   a.m10 * b.m02 + a.m11 * b.m12 + a.m12 * b.m22 + a.m13 * b.m32,
   a.m10 * b.m03 + a.m11 * b.m13 + a.m12 * b.m23 + a.m13 * b.m33,
   a.m20 * b.m00 + a.m21 * b.m10 + a.m22 * b.m20 + a.m23 * b.m30,
   a.m20 * b.m01 + a.m21 * b.m11 + a.m22 * b.m21 + a.m23 * b.m31,
   a.m20 * b.m02 + a.m21 * b.m12 + a.m22 * b.m22 + a.m23 * b.m32,
   a.m20 * b.m03 + a.m21 * b.m13 + a.m22 * b.m23 + a.m23 * b.m33,
   a.m30 * b.m00 + a.m31 * b.m10 + a.m32 * b.m20 + a.m33 * b.m30,
   a.m30 * b.m01 + a.m31 * b.m11 + a.m32 * b.m21 + a.m33 * b.m31,
   a.m30 * b.m02 + a.m31 * b.m12 + a.m32 * b.m22 + a.m33 * b.m32,
   a.m30 * b.m03 + a.m31 * b.m13 + a.m32 * b.m23 + a.m33 * b.m33⟩

instance : Mul M4 := ⟨M4.mul⟩

theorem M4.mul_def (a b : M4) : a * b = M4.mul a b := rfl

/-- `glm::translate(glm::mat4(1.0f), v)`: identity with `v` in column 3. -/
def M4.translate (v : V3) : M4 :=
  ⟨1, 0, 0, v.x,
   0, 1, 0, v.y,
   0, 0, 1, v.z,
   0, 0, 0, 1⟩

/-- `glm::mat4_cast(q)`: rotation matrix of a quaternion, per the GLM
`mat3_cast` formula extended to a homogeneous 4×4 matrix.  Purely quadratic
in the components, hence rational. -/
def mat4_cast (q : Quat) : M4 :=
  ⟨1 - 2 * (q.y * q.y + q.z * q.z), 2 * (q.x * q.y - q.w * q.z),
     2 * (q.x * q.z + q.w * q.y), 0,
   2 * (q.x * q.y + q.w * q.z), 1 - 2 * (q.x * q.x + q.z * q.z),
     2 * (q.y * q.z - q.w * q.x), 0,
   2 * (q.x * q.z - q.w * q.y), 2 * (q.y * q.z + q.w * q.x),
     1 - 2 * (q.x * q.x + q.y * q.y), 0,
   0, 0, 0, 1⟩

/-- `glm::clamp(x, lo, hi)` on scalars: `min(max(x, lo), hi)`. -/
def clampQ (x lo hi : ℚ) : ℚ := min (max x lo) hi

/-- `glm::mix(x, y, a)` on scalars: `x * (1 - a) + y * a`. -/
def mixQ (x y a : ℚ) : ℚ := x * (1 - a) + y * a

/-- Abstraction of the transcendental GLM entry points used by the motion
controller.  `sinr`/`acosr` are the `sin`/`acos` used inside `glm::slerp`;
`eulerRotDeg v` is the composite rotation matrix
`glm::rotate(glm::rotate(glm::rotate(I, radians(v.x), X), radians(v.y), Y), radians(v.z), Z)`
applied to Euler angles in degrees; `quatFromEulerDeg e` is
`glm::quat(glm::radians(e))` used by the `KeyFrame` constructor. -/
structure Glm where
  sinr : ℚ → ℚ
  acosr : ℚ → ℚ
  eulerRotDeg : V3 → M4
  quatFromEulerDeg : V3 → Quat

/-- `epsilon<float>()` used by `glm::slerp`: the machine epsilon `2⁻²³`. -/
def glmEps : ℚ := 1 / 8388608

/-- `glm::slerp(x, y, a)` on quaternions, following the GLM source: negate
`y` when the dot product is negative, fall back to componentwise linear
interpolation when `cosTheta > 1 - ε`, otherwise the `sin`-weighted blend. -/
def slerp (g : Glm) (x y : Quat) (a : ℚ) : Quat :=
  let cosTheta0 := Quat.dot x y
  let z := if cosTheta0 < 0 then -y else y
  let cosTheta := if cosTheta0 < 0 then -cosTheta0 else cosTheta0
  if cosTheta > 1 - glmEps then
    ⟨mixQ x.w z.w a, mixQ x.x z.x a, mixQ x.y z.y a, mixQ x.z z.z a⟩
  else
    let angle := g.acosr cosTheta
    Quat.divScalar (g.sinr ((1 - a) * angle) • x + g.sinr (a * angle) • z)
      (g.sinr angle)

/-- Embedding of `struct KeyFrame` (all four stored fields). -/
structure KeyFrame where
  position : V3
  eulerAngles : V3
  quaternion : Quat
  time : ℚ
deriving DecidableEq

instance : Inhabited KeyFrame := ⟨⟨default, default, default, 0⟩⟩

/-- The `KeyFrame(pos, euler, t)` constructor: derives the quaternion from
the Euler angles through `glm::quat(glm::radians(euler))`. -/
def KeyFrame.ofEuler (g : Glm) (pos euler : V3) (t : ℚ) : KeyFrame :=
  ⟨pos, euler, g.quatFromEulerDeg euler, t⟩

/-- Embedding of `OptimizedMotionController::SegmentData`. -/
structure SegmentData where
  p0 : V3
  p1 : V3
  p2 : V3
  p3 : V3
  e0 : V3
  e1 : V3
  e2 : V3
  e3 : V3
  q1 : Quat
  q2 : Quat
  startTime : ℚ
  endTime : ℚ
  duration : ℚ
deriving DecidableEq

instance : Inhabited SegmentData :=
  ⟨⟨default, default, default, default, default, default, default, default,
    default, default, 0, 0, 0⟩⟩

/-- State of an `OptimizedMotionController`: the keyframe vector plus every
`mutable` cache field. -/
structure Ctrl where
  keyframes : List KeyFrame
  lastSegment : ℤ
  lastTime : ℚ
  cachedTransform : M4
  segments : List SegmentData
  segmentsCached : Bool
deriving DecidableEq

/-- A freshly constructed controller (C++ member initializers). -/
def Ctrl.init : Ctrl := ⟨[], 0, -1, M4.identity, [], false⟩

/-- One peel of the first `while` loop of `normalizeAngles`:
subtract 360 while `result - reference > 180`. -/
def subLoop (x r : ℚ) : ℚ :=
  if x - r > 180 then subLoop (x - 360) r else x
termination_by (Int.ceil ((x - r) / 360)).toNat
decreasing_by
  have h2 : (x - 360 - r) / 360 = (x - r) / 360 - ((1 : ℤ) : ℚ) := by
    push_cast; ring
  rw [h2, Int.ceil_sub_int]
  have h3 : (0 : ℤ) < Int.ceil ((x - r) / 360) :=
    Int.ceil_pos.mpr (by linarith)
  omega

/-- The second `while` loop of `normalizeAngles`:
add 360 while `result - reference < -180`. -/
def addLoop (x r : ℚ) : ℚ :=
  if x - r < -180 then addLoop (x + 360) r else x
termination_by (Int.ceil ((r - x) / 360)).toNat
decreasing_by
  have h2 : (r - (x + 360)) / 360 = (r - x) / 360 - ((1 : ℤ) : ℚ) := by
    push_cast; ring
  rw [h2, Int.ceil_sub_int]
  have h3 : (0 : ℤ) < Int.ceil ((r - x) / 360) :=
    Int.ceil_pos.mpr (by linarith)
  omega

/-- Both loops of `normalizeAngles` for one component, in source order. -/
def normAngle (x r : ℚ) : ℚ := addLoop (subLoop x r) r

/-- `OptimizedMotionController::normalizeAngles(angles, reference)`:
componentwise 360-degree normalization towards the reference. -/
def normalizeAngles (angles reference : V3) : V3 :=
  ⟨normAngle angles.x reference.x, normAngle angles.y reference.y,
   normAngle angles.z reference.z⟩

/-- The segment built by the loop body of `precomputeSegments` for index
`i` (`0 ≤ i ≤ n - 2`), with boundary-clamped control points and
angle-normalized Euler control points. -/
def buildSegment (kfs : List KeyFrame) (i : ℕ) : SegmentData :=
  let p0 := (kfs.getD (i - 1) default).position
  let p1 := (kfs.getD i default).position
  let p2 := (kfs.getD (i + 1) default).position
  let p3 := (kfs.getD (min (i + 2) (kfs.length - 1)) default).position
  let e0r := (kfs.getD (i - 1) default).eulerAngles
  let e1 := (kfs.getD i default).eulerAngles
  let e2r := (kfs.getD (i + 1) default).eulerAngles
  let e3r := (kfs.getD (min (i + 2) (kfs.length - 1)) default).eulerAngles
  let e0 := normalizeAngles e0r e1
  let e2 := normalizeAngles e2r e1
  let e3 := normalizeAngles e3r e2
  ⟨p0, p1, p2, p3, e0, e1, e2, e3,
   (kfs.getD i default).quaternion, (kfs.getD (i + 1) default).quaternion,
   (kfs.getD i default).time, (kfs.getD (i + 1) default).time,
   (kfs.getD (i + 1) default).time - (kfs.getD i default).time⟩

/-- The full segment array built by `precomputeSegments`. -/
def buildSegments (kfs : List KeyFrame) : List SegmentData :=
  (List.range (kfs.length - 1)).map (buildSegment kfs)

/-- `OptimizedMotionController::precomputeSegments`: early-out when cached
or fewer than two keyframes, otherwise rebuild the whole segment array. -/
def precomputeSegments (s : Ctrl) : Ctrl :=
  if s.segmentsCached || s.keyframes.length < 2 then s
  else { s with segments := buildSegments s.keyframes, segmentsCached := true }

/-- The fallback binary-search loop of `findSegment` (the `while (left <=
right)` loop followed by the clamped return).  In C++ the mid index is
`(left + right) / 2` on `int`; every executed call has nonnegative
operands, where Lean's integer division agrees. -/
def bsearchLoop (segs : List SegmentData) (time : ℚ) (left right : ℤ) : ℤ :=
  if _h : left ≤ right then
    if time < (segs.getD ((left + right) / 2).toNat default).startTime then
      bsearchLoop segs time left ((left + right) / 2 - 1)
    else if time > (segs.getD ((left + right) / 2).toNat default).endTime then
      bsearchLoop segs time ((left + right) / 2 + 1) right
    else (left + right) / 2
  else max 0 (min right ((segs.length : ℤ) - 1))
termination_by (right + 1 - left).toNat
decreasing_by
  · omega
  · omega

/-- `OptimizedMotionController::findSegment(time)`: the three temporal
locality checks (`lastSegment`, `lastSegment + 1`, `lastSegment - 1`)
followed by the binary search with clamped fallback. -/
def findSegment (s : Ctrl) (time : ℚ) : ℤ :=
  if s.keyframes.length < 2 then 0
  else
    let segs := s.segments
    let ls := s.lastSegment
    let n : ℤ := segs.length
    if ls < n ∧ (segs.getD ls.toNat default).startTime ≤ time ∧
        time ≤ (segs.getD ls.toNat default).endTime then ls
    else if ls + 1 < n ∧ (segs.getD (ls + 1).toNat default).startTime ≤ time ∧
        time ≤ (segs.getD (ls + 1).toNat default).endTime then ls + 1
    else if ls > 0 ∧ (segs.getD (ls - 1).toNat default).startTime ≤ time ∧
        time ≤ (segs.getD (ls - 1).toNat default).endTime then ls - 1
    else bsearchLoop segs time 0 (n - 1)

/-- `fastCatmullRomPosition(t, seg)`. -/
def fastCatmullRomPosition (t : ℚ) (seg : SegmentData) : V3 :=
  let t2 := t * t
  let t3 := t2 * t
  (1 / 2 : ℚ) •
    ((2 : ℚ) • seg.p1 + t • (-seg.p0 + seg.p2) +
     t2 • ((2 : ℚ) • seg.p0 - (5 : ℚ) • seg.p1 + (4 : ℚ) • seg.p2 - seg.p3) +
     t3 • (-seg.p0 + (3 : ℚ) • seg.p1 - (3 : ℚ) • seg.p2 + seg.p3))

/-- `fastCatmullRomEuler(t, seg)`. -/
def fastCatmullRomEuler (t : ℚ) (seg : SegmentData) : V3 :=
  let t2 := t * t
  let t3 := t2 * t
  (1 / 2 : ℚ) •
    ((2 : ℚ) • seg.e1 + t • (-seg.e0 + seg.e2) +
     t2 • ((2 : ℚ) • seg.e0 - (5 : ℚ) • seg.e1 + (4 : ℚ) • seg.e2 - seg.e3) +
     t3 • (-seg.e0 + (3 : ℚ) • seg.e1 - (3 : ℚ) • seg.e2 + seg.e3))

/-- `fastBSplinePosition(t, seg)`. -/
def fastBSplinePosition (t : ℚ) (seg : SegmentData) : V3 :=
  let t2 := t * t
  let t3 := t2 * t
  (1 / 6 : ℚ) •
    ((-t3 + 3 * t2 - 3 * t + 1) • seg.p0 +
     (3 * t3 - 6 * t2 + 4) • seg.p1 +
     (-3 * t3 + 3 * t2 + 3 * t + 1) • seg.p2 +
     t3 • seg.p3)

/-- `fastBSplineEuler(t, seg)`. -/
def fastBSplineEuler (t : ℚ) (seg : SegmentData) : V3 :=
  let t2 := t * t
  let t3 := t2 * t
  (1 / 6 : ℚ) •
    ((-t3 + 3 * t2 - 3 * t + 1) • seg.e0 +
     (3 * t3 - 6 * t2 + 4) • seg.e1 +
     (-3 * t3 + 3 * t2 + 3 * t + 1) • seg.e2 +
     t3 • seg.e3)

/-- `OptimizedMotionController::addKeyFrame`. -/
def addKeyFrame (s : Ctrl) (kf : KeyFrame) : Ctrl :=
  { s with keyframes := s.keyframes ++ [kf],
           segmentsCached := false,
           lastTime := -1 }

/-- `OptimizedMotionController::addMultipleKeyFrames`: push all, then
invalidate the caches once. -/
def addMultipleKeyFrames (s : Ctrl) (kfs : List KeyFrame) : Ctrl :=
  { s with keyframes := s.keyframes ++ kfs,
           segmentsCached := false,
           lastTime := -1 }

/-- `OptimizedMotionController::clearKeyFrames`. -/
def clearKeyFrames (s : Ctrl) : Ctrl :=
  { s with keyframes := [],
           segments := [],
           segmentsCached := false,
           lastSegment := 0,
           lastTime := -1 }

/-- `TIME_EPSILON` of `getTransformationMatrix`. -/
def timeEpsilon : ℚ := 1 / 10000

/-- The normalized interpolation parameter of step 7:
`t = duration > 0 ? clamp((time - startTime) / duration, 0, 1) : 0`. -/
def segmentParam (time : ℚ) (seg : SegmentData) : ℚ :=
  if 0 < seg.duration then clampQ ((time - seg.startTime) / seg.duration) 0 1
  else 0

/-- The segment actually read by `getTransformationMatrix` after the lazy
rebuild: entry `findSegment(time)` of the (fresh) segment array. -/
def evalSegment (s : Ctrl) (time : ℚ) : SegmentData :=
  (precomputeSegments s).segments.getD
    (findSegment (precomputeSegments s) time).toNat default

/-- The rotation factor used for a single keyframe pose: quaternion cast or
X·Y·Z Euler rotation, depending on `useQuat`. -/
def keyframeRotation (g : Glm) (kf : KeyFrame) (useQuat : Bool) : M4 :=
  if useQuat then mat4_cast kf.quaternion else g.eulerRotDeg kf.eulerAngles

/-- `OptimizedMotionController::getTransformationMatrix(time, useQuat,
useBSplines)`, returning the matrix and the updated mutable state. -/
def getTransformationMatrix (g : Glm) (s : Ctrl) (time : ℚ)
    (useQuat useBSplines : Bool) : M4 × Ctrl :=
  if s.keyframes = [] then (M4.identity, s)
  else if |time - s.lastTime| < timeEpsilon ∧ 0 ≤ s.lastTime then
    (s.cachedTransform, s)
  else if s.keyframes.length = 1 then
    let kf := s.keyframes.getD 0 default
    let m := M4.translate kf.position * keyframeRotation g kf useQuat
    (m, { s with lastTime := time, cachedTransform := m })
  else
    let s1 := precomputeSegments s
    let currentSegment := findSegment s1 time
    if currentSegment ≥ (s1.segments.length : ℤ) then
      let lastKF := s1.keyframes.getLastD default
      let m := M4.translate lastKF.position * keyframeRotation g lastKF useQuat
      (m, { s1 with lastSegment := currentSegment, lastTime := time,
                    cachedTransform := m })
    else
      let seg := s1.segments.getD currentSegment.toNat default
      let t := segmentParam time seg
      let position := if useBSplines then fastBSplinePosition t seg
                      else fastCatmullRomPosition t seg
      let rotation :=
        if useQuat then mat4_cast (slerp g seg.q1 seg.q2 t)
        else g.eulerRotDeg (if useBSplines then fastBSplineEuler t seg
                            else fastCatmullRomEuler t seg)
      let m := M4.translate position * rotation
      (m, { s1 with lastSegment := currentSegment, lastTime := time,
                    cachedTransform := m })

/-- `OptimizedMotionController::getTotalTime`. -/
def getTotalTime (s : Ctrl) : ℚ :=
  if s.keyframes = [] then 0 else (s.keyframes.getLastD default).time

/-- `OptimizedMotionController::getKeyFrameCount`. -/
def getKeyFrameCount (s : Ctrl) : ℕ := s.keyframes.length

/-- `OptimizedMotionController::getTotalTime` duplicate guard removed below;
predicates describing a consistent evaluator state. -/
def SegOk (s : Ctrl) : Prop :=
  s.segmentsCached = true → s.segments = buildSegments s.keyframes

/-- Invariant on the cached segment index maintained by the controller:
`lastSegment` starts at 0, is reset to 0 by `clearKeyFrames`, and is only
ever overwritten with `findSegment` results, which lie below the (only
growing) segment count. -/
def LastSegOk (s : Ctrl) : Prop :=
  0 ≤ s.lastSegment ∧
    (2 ≤ s.keyframes.length → s.lastSegment < (s.keyframes.length : ℤ) - 1)

/-- The query-cache check of step 2 fails: the query is not served from
`cachedTransform`. -/
def CacheMiss (s : Ctrl) (time : ℚ) : Prop :=
  ¬ (|time - s.lastTime| < timeEpsilon ∧ 0 ≤ s.lastTime)

/-- The two trigonometric facts about the real `sin`/`acos` that the slerp
boundary-exactness arguments need: `sin 0 = 0`, and `sin (acos c) ≠ 0` (GLM
only reaches the trigonometric branch for `cosTheta ≤ 1 - ε`, where this
holds for the real functions). -/
def SlerpExact (g : Glm) : Prop :=
  g.sinr 0 = 0 ∧ ∀ c : ℚ, g.sinr (g.acosr c) ≠ 0

/-- 360°-periodicity of the Euler rotation composite, a fact of the real
`glm::rotate` matrices (`cos`/`sin` have period 2π = radians(360°)). -/
def EulerPeriodic (g : Glm) : Prop :=
  ∀ v w : V3,
    (∃ i j k : ℤ, w.x = v.x + 360 * i ∧ w.y = v.y + 360 * j ∧
        w.z = v.z + 360 * k) →
    g.eulerRotDeg w = g.eulerRotDeg v

/-- The Euler rotation composite is an affine (homogeneous) matrix: last
column `(0,0,0,1)ᵗ` and last row `(0,0,0,1)`, as every `glm::rotate`
product is. -/
def EulerAffine (g : Glm) : Prop :=
  ∀ v : V3,
    (g.eulerRotDeg v).m03 = 0 ∧ (g.eulerRotDeg v).m13 = 0 ∧
    (g.eulerRotDeg v).m23 = 0 ∧ (g.eulerRotDeg v).m30 = 0 ∧
    (g.eulerRotDeg v).m31 = 0 ∧ (g.eulerRotDeg v).m32 = 0 ∧
    (g.eulerRotDeg v).m33 = 1

/-- Translation column of a transform (entries `m03, m13, m23`). -/
def transCol (m : M4) : V3 := ⟨m.m03, m.m13, m.m23⟩

/-- The transform with its translation column zeroed: for the affine
transforms produced by the controller this is the rotation factor. -/
def linPart (m : M4) : M4 :=
  { m with m03 := 0, m13 := 0, m23 := 0 }

-- ### Basic algebraic facts about the spline blends and GLM primitives

theorem fastCatmullRomPosition_zero (seg : SegmentData) :
    fastCatmullRomPosition 0 seg = seg.p1 := by
  simp only [fastCatmullRomPosition, V3_smul_def, V3_add_def, V3_sub_def,
    V3_neg_def]
  ext <;> ring

theorem fastCatmullRomPosition_one (seg : SegmentData) :
    fastCatmullRomPosition 1 seg = seg.p2 := by
  simp only [fastCatmullRomPosition, V3_smul_def, V3_add_def, V3_sub_def,
    V3_neg_def]
  ext <;> ring

theorem fastCatmullRomEuler_zero (seg : SegmentData) :
    fastCatmullRomEuler 0 seg = seg.e1 := by
  simp only [fastCatmullRomEuler, V3_smul_def, V3_add_def, V3_sub_def,
    V3_neg_def]
  ext <;> ring

theorem fastCatmullRomEuler_one (seg : SegmentData) :
    fastCatmullRomEuler 1 seg = seg.e2 := by
  simp only [fastCatmullRomEuler, V3_smul_def, V3_add_def, V3_sub_def,
    V3_neg_def]
  ext <;> ring

theorem mat4_cast_neg (q : Quat) : mat4_cast (-q) = mat4_cast q := by
  simp only [mat4_cast, Quat_neg_def]
  ext <;> ring

theorem clampQ_of_le_zero {x : ℚ} (h : x ≤ 0) : clampQ x 0 1 = 0 := by
  simp only [clampQ]
  rw [max_eq_right h, min_eq_left]
  norm_num

theorem clampQ_of_one_le {x : ℚ} (h : 1 ≤ x) : clampQ x 0 1 = 1 := by
  simp only [clampQ]
  rw [max_eq_left (by linarith), min_eq_right h]

/-- `glm::slerp` at parameter 0 returns its first argument exactly (both
the lerp fallback and the trigonometric branch). -/
theorem slerp_zero_quat {g : Glm} (hg : SlerpExact g) (x y : Quat) :
    slerp g x y 0 = x := by
  obtain ⟨h0, hs⟩ := hg
  unfold slerp
  by_cases hd : Quat.dot x y < 0
  · simp only [if_pos hd]
    split
    · ext <;> simp [mixQ]
    · ext <;>
        simp only [Quat.divScalar, Quat_add_def, Quat_smul_def, Quat_neg_def,
          sub_zero, one_mul, zero_mul, h0, add_zero] <;>
        exact mul_div_cancel_left₀ _ (hs _)
  · simp only [if_neg hd]
    split
    · ext <;> simp [mixQ]
    · ext <;>
        simp only [Quat.divScalar, Quat_add_def, Quat_smul_def,
          sub_zero, one_mul, zero_mul, h0, add_zero] <;>
        exact mul_div_cancel_left₀ _ (hs _)

/-- `glm::slerp` at parameter 1 returns the (possibly negated) second
argument exactly. -/
theorem slerp_one_quat {g : Glm} (hg : SlerpExact g) (x y : Quat) :
    slerp g x y 1 = if Quat.dot x y < 0 then -y else y := by
  obtain ⟨h0, hs⟩ := hg
  unfold slerp
  by_cases hd : Quat.dot x y < 0
  · simp only [if_pos hd]
    split
    · ext <;> simp [mixQ]
    · ext <;>
        simp only [Quat.divScalar, Quat_add_def, Quat_smul_def, Quat_neg_def,
          sub_self, one_mul, zero_mul, h0, zero_add] <;>
        exact mul_div_cancel_left₀ _ (hs _)
  · simp only [if_neg hd]
    split
    · ext <;> simp [mixQ]
    · ext <;>
        simp only [Quat.divScalar, Quat_add_def, Quat_smul_def,
          sub_self, one_mul, zero_mul, h0, zero_add] <;>
        exact mul_div_cancel_left₀ _ (hs _)

/-- After the quadratic `mat4_cast`, slerp at parameter 1 is exactly the
rotation of the second endpoint, the shortest-path sign notwithstanding. -/
theorem slerp_one_cast {g : Glm} (hg : SlerpExact g) (x y : Quat) :
    mat4_cast (slerp g x y 1) = mat4_cast y := by
  rw [slerp_one_quat hg]
  split
  · exact mat4_cast_neg y
  · rfl

-- ### The angle-normalization loops

theorem subLoop_of_le {x r : ℚ} (h : x - r ≤ 180) : subLoop x r = x := by
  rw [subLoop.eq_def, if_neg (by linarith)]

theorem subLoop_step {x r : ℚ} (h : x - r > 180) :
    subLoop x r = subLoop (x - 360) r := by
  rw [subLoop.eq_def, if_pos h]

theorem addLoop_of_ge {x r : ℚ} (h : -180 ≤ x - r) : addLoop x r = x := by
  rw [addLoop.eq_def, if_neg (by linarith)]

theorem addLoop_step {x r : ℚ} (h : x - r < -180) :
    addLoop x r = addLoop (x + 360) r := by
  rw [addLoop.eq_def, if_pos h]

/-- The subtract loop exits with difference at most 180. -/
theorem subLoop_le (x r : ℚ) : subLoop x r - r ≤ 180 := by
  induction x, r using subLoop.induct with
  | case1 x r h ih => rwa [subLoop_step h]
  | case2 x r h => rw [subLoop_of_le (by linarith)]; linarith

/-- The subtract loop never drops the difference below -180 (each executed
iteration starts above 180 and subtracts 360). -/
theorem subLoop_ge {x r : ℚ} (h : -180 ≤ x - r) : -180 ≤ subLoop x r - r := by
  induction x, r using subLoop.induct with
  | case1 x r hc ih => rw [subLoop_step hc]; exact ih (by linarith)
  | case2 x r hc => rw [subLoop_of_le (by linarith)]; exact h

/-- The add loop exits with difference at least -180. -/
theorem addLoop_ge (x r : ℚ) : -180 ≤ addLoop x r - r := by
  induction x, r using addLoop.induct with
  | case1 x r h ih => rwa [addLoop_step h]
  | case2 x r h => rw [addLoop_of_ge (by linarith)]; linarith

/-- The add loop never pushes the difference above 180. -/
theorem addLoop_le {x r : ℚ} (h : x - r ≤ 180) : addLoop x r - r ≤ 180 := by
  induction x, r using addLoop.induct with
  | case1 x r hc ih => rw [addLoop_step hc]; exact ih (by linarith)
  | case2 x r hc => rw [addLoop_of_ge (by linarith)]; exact h

theorem subLoop_multiple (x r : ℚ) : ∃ k : ℤ, subLoop x r = x + 360 * k := by
  induction x, r using subLoop.induct with
  | case1 x r h ih =>
      obtain ⟨k, hk⟩ := ih
      exact ⟨k - 1, by rw [subLoop_step h, hk]; push_cast; ring⟩
  | case2 x r h => exact ⟨0, by rw [subLoop_of_le (by linarith)]; ring⟩

theorem addLoop_multiple (x r : ℚ) : ∃ k : ℤ, addLoop x r = x + 360 * k := by
  induction x, r using addLoop.induct with
  | case1 x r h ih =>
      obtain ⟨k, hk⟩ := ih
      exact ⟨k + 1, by rw [addLoop_step h, hk]; push_cast; ring⟩
  | case2 x r h => exact ⟨0, by rw [addLoop_of_ge (by linarith)]; ring⟩

/-- Per-component contract of `normalizeAngles`: the result is within 180°
of the reference. -/
theorem normAngle_bounds (x r : ℚ) : |normAngle x r - r| ≤ 180 := by
  rw [abs_le, normAngle]
  exact ⟨addLoop_ge _ r, addLoop_le (subLoop_le x r)⟩

/-- Per-component contract of `normalizeAngles`: the result differs from
the input by an integer multiple of 360°. -/
theorem normAngle_multiple (x r : ℚ) : ∃ k : ℤ, normAngle x r = x + 360 * k := by
  obtain ⟨k1, hk1⟩ := subLoop_multiple x r
  obtain ⟨k2, hk2⟩ := addLoop_multiple (subLoop x r) r
  exact ⟨k1 + k2, by rw [normAngle, hk2, hk1]; push_cast; ring⟩

/-- When the input is already within 180° of the reference, both loops are
skipped and `normalizeAngles` is the identity on that component. -/
theorem normAngle_of_bounds {x r : ℚ} (h1 : -180 ≤ x - r) (h2 : x - r ≤ 180) :
    normAngle x r = x := by
  rw [normAngle, subLoop_of_le h2, addLoop_of_ge h1]

theorem normAngle_zero : normAngle 0 0 = 0 :=
  normAngle_of_bounds (by norm_num) (by norm_num)

/-- `normalizeAngles` on identical inputs (used by boundary-clamped
segments) is the identity. -/
theorem normalizeAngles_self (v : V3) : normalizeAngles v v = v := by
  simp only [normalizeAngles]
  ext <;>
    exact normAngle_of_bounds (by rw [sub_self]; norm_num)
      (by rw [sub_self]; norm_num)

-- ### Strictly increasing keyframe times

/-- Decidable strict monotonicity of the stored keyframe times. -/
def strictTimesB : List KeyFrame → Bool
  | [] => true
  | [_] => true
  | a :: b :: rest => decide (a.time < b.time) && strictTimesB (b :: rest)

theorem strictTimesB_tail {a : KeyFrame} {l : List KeyFrame}
    (h : strictTimesB (a :: l) = true) : strictTimesB l = true := by
  cases l with
  | nil => rfl
  | cons b rest =>
      simp only [strictTimesB, Bool.and_eq_true] at h
      exact h.2

/-- Time of the keyframe at index `i` (with the default keyframe out of
range). -/
def tmAt (kfs : List KeyFrame) (i : ℕ) : ℚ := (kfs.getD i default).time

theorem tmAt_adj {kfs : List KeyFrame} (h : strictTimesB kfs = true)
    {i : ℕ} (hi : i + 1 < kfs.length) : tmAt kfs i < tmAt kfs (i + 1) := by
  induction kfs generalizing i with
  | nil => simp at hi
  | cons a l ih =>
      cases l with
      | nil => simp at hi
      | cons b rest =>
          simp only [strictTimesB, Bool.and_eq_true, decide_eq_true_eq] at h
          cases i with
          | zero => exact h.1
          | succ j =>
              have := ih h.2 (by simpa using Nat.lt_of_succ_lt_succ hi)
              simpa [tmAt, List.getD] using this

theorem tmAt_mono_le {kfs : List KeyFrame} (h : strictTimesB kfs = true)
    {i j : ℕ} (hij : i ≤ j) (hj : j < kfs.length) :
    tmAt kfs i ≤ tmAt kfs j := by
  induction j with
  | zero =>
      have h0 : i = 0 := Nat.le_zero.mp hij
      rw [h0]
  | succ m ih =>
      rcases Nat.lt_or_ge i (m + 1) with hlt | hge
      · have h1 : tmAt kfs i ≤ tmAt kfs m := ih (by omega) (by omega)
        have h2 : tmAt kfs m < tmAt kfs (m + 1) := tmAt_adj h hj
        linarith
      · have : i = m + 1 := by omega
        rw [this]

theorem tmAt_mono_lt {kfs : List KeyFrame} (h : strictTimesB kfs = true)
    {i j : ℕ} (hij : i < j) (hj : j < kfs.length) :
    tmAt kfs i < tmAt kfs j := by
  have h1 : tmAt kfs i ≤ tmAt kfs (j - 1) := tmAt_mono_le h (by omega) (by omega)
  have h2 : tmAt kfs (j - 1) < tmAt kfs (j - 1 + 1) := tmAt_adj h (by omega)
  have : j - 1 + 1 = j := by omega
  rw [this] at h2
  linarith

-- ### Indexing facts about the derived segment array

theorem buildSegments_length (kfs : List KeyFrame) :
    (buildSegments kfs).length = kfs.length - 1 := by
  simp [buildSegments]

theorem buildSegments_getD {kfs : List KeyFrame} {i : ℕ}
    (hi : i < kfs.length - 1) :
    (buildSegments kfs).getD i default = buildSegment kfs i := by
  rw [buildSegments, List.getD_eq_getElem?_getD, List.getElem?_map,
    List.getElem?_range hi]
  rfl

theorem buildSegment_startTime (kfs : List KeyFrame) (i : ℕ) :
    (buildSegment kfs i).startTime = tmAt kfs i := rfl

theorem buildSegment_endTime (kfs : List KeyFrame) (i : ℕ) :
    (buildSegment kfs i).endTime = tmAt kfs (i + 1) := rfl

theorem buildSegment_duration (kfs : List KeyFrame) (i : ℕ) :
    (buildSegment kfs i).duration = tmAt kfs (i + 1) - tmAt kfs i := rfl

theorem buildSegment_p1 (kfs : List KeyFrame) (i : ℕ) :
    (buildSegment kfs i).p1 = (kfs.getD i default).position := rfl

theorem buildSegment_p2 (kfs : List KeyFrame) (i : ℕ) :
    (buildSegment kfs i).p2 = (kfs.getD (i + 1) default).position := rfl

theorem buildSegment_q1 (kfs : List KeyFrame) (i : ℕ) :
    (buildSegment kfs i).q1 = (kfs.getD i default).quaternion := rfl

theorem buildSegment_q2 (kfs : List KeyFrame) (i : ℕ) :
    (buildSegment kfs i).q2 = (kfs.getD (i + 1) default).quaternion := rfl

theorem buildSegment_e1 (kfs : List KeyFrame) (i : ℕ) :
    (buildSegment kfs i).e1 = (kfs.getD i default).eulerAngles := rfl

theorem buildSegment_e2 (kfs : List KeyFrame) (i : ℕ) :
    (buildSegment kfs i).e2 =
      normalizeAngles ((kfs.getD (i + 1) default).eulerAngles)
        ((kfs.getD i default).eulerAngles) := rfl

/-- `getLastD` is indexing at `length - 1`. -/
theorem getLastD_eq_getD {α : Type} [Inhabited α] (l : List α) :
    l.getLastD default = l.getD (l.length - 1) default := by
  cases l with
  | nil => rfl
  | cons a m =>
      rw [List.getLastD_eq_getLast?, List.getLast?_eq_getElem?,
        List.getD_eq_getElem?_getD]

-- ### Verification of the binary-search fallback

/-- The binary search always returns an index in `[0, segmentCount - 1]`
when started from `left = 0`, `right = segmentCount - 1` with at least one
segment (both the found `mid` and the clamped fallthrough land there). -/
theorem bsearchLoop_mem (segs : List SegmentData) (time : ℚ) :
    ∀ left right : ℤ,
      0 ≤ left → right ≤ (segs.length : ℤ) - 1 → 1 ≤ segs.length →
      0 ≤ bsearchLoop segs time left right ∧
      bsearchLoop segs time left right ≤ (segs.length : ℤ) - 1 := by
  intro left right
  induction left, right using bsearchLoop.induct segs time with
  | case1 left right h hc ih =>
      intro hl hr hn
      rw [bsearchLoop.eq_def, dif_pos h, if_pos hc]
      exact ih hl (by omega) hn
  | case2 left right h hc1 hc2 ih =>
      intro hl hr hn
      rw [bsearchLoop.eq_def, dif_pos h, if_neg hc1, if_pos hc2]
      exact ih (by omega) hr hn
  | case3 left right h hc1 hc2 =>
      intro hl hr hn
      rw [bsearchLoop.eq_def, dif_pos h, if_neg hc1, if_neg hc2]
      constructor <;> omega
  | case4 left right h =>
      intro hl hr hn
      rw [bsearchLoop.eq_def, dif_neg h]
      constructor <;> omega

/-- When the query time lies strictly beyond every segment's end, the
search walks to the right and the clamped fallthrough returns the final
segment index. -/
theorem bsearchLoop_all_above (segs : List SegmentData) (time : ℚ)
    (hend : ∀ j : ℕ, j < segs.length → (segs.getD j default).endTime < time)
    (hse : ∀ j : ℕ, j < segs.length →
      (segs.getD j default).startTime ≤ (segs.getD j default).endTime)
    (hn : 1 ≤ segs.length) :
    ∀ left right : ℤ, right = (segs.length : ℤ) - 1 →
      bsearchLoop segs time left right = (segs.length : ℤ) - 1 := by
  intro left right
  induction left, right using bsearchLoop.induct segs time with
  | case1 left right h hc ih =>
      intro hr
      have hj : ((left + right) / 2).toNat < segs.length := by omega
      have h1 := hend _ hj
      have h2 := hse _ hj
      linarith
  | case2 left right h hc1 hc2 ih =>
      intro hr
      rw [bsearchLoop.eq_def, dif_pos h, if_neg hc1, if_pos hc2]
      exact ih hr
  | case3 left right h hc1 hc2 =>
      intro hr
      have hj : ((left + right) / 2).toNat < segs.length := by omega
      have h1 := hend _ hj
      exact absurd (lt_of_le_of_lt (not_lt.mp hc2) h1) (lt_irrefl time)
  | case4 left right h =>
      intro hr
      rw [bsearchLoop.eq_def, dif_neg h]
      omega

/-- When the query time lies strictly before every segment's start, the
search walks to the left and the clamped fallthrough returns segment 0. -/
theorem bsearchLoop_all_below (segs : List SegmentData) (time : ℚ)
    (hstart : ∀ j : ℕ, j < segs.length →
      time < (segs.getD j default).startTime) :
    ∀ left right : ℤ, left = 0 → right ≤ (segs.length : ℤ) - 1 →
      bsearchLoop segs time left right = 0 := by
  intro left right
  induction left, right using bsearchLoop.induct segs time with
  | case1 left right h hc ih =>
      intro hl hr
      rw [bsearchLoop.eq_def, dif_pos h, if_pos hc]
      exact ih hl (by omega)
  | case2 left right h hc1 hc2 ih =>
      intro hl hr
      have hj : ((left + right) / 2).toNat < segs.length := by omega
      exact absurd (hstart _ hj) hc1
  | case3 left right h hc1 hc2 =>
      intro hl hr
      have hj : ((left + right) / 2).toNat < segs.length := by omega
      exact absurd (hstart _ hj) hc1
  | case4 left right h =>
      intro hl hr
      rw [bsearchLoop.eq_def, dif_neg h]
      omega

/-- Segment start times are monotone along a contiguous, well-formed
segment array. -/
theorem segStarts_mono (segs : List SegmentData)
    (hse : ∀ j : ℕ, j < segs.length →
      (segs.getD j default).startTime ≤ (segs.getD j default).endTime)
    (hcont : ∀ j : ℕ, j + 1 < segs.length →
      (segs.getD (j + 1) default).startTime = (segs.getD j default).endTime) :
    ∀ i j : ℕ, i ≤ j → j < segs.length →
      (segs.getD i default).startTime ≤ (segs.getD j default).startTime := by
  intro i j hij hj
  induction j with
  | zero =>
      have h0 : i = 0 := Nat.le_zero.mp hij
      rw [h0]
  | succ m ih =>
      rcases Nat.lt_or_ge i (m + 1) with hlt | hge
      · have h1 := ih (by omega) (by omega)
        have h2 := hse m (by omega)
        have h3 := hcont m hj
        linarith
      · have h0 : i = m + 1 := by omega
        rw [h0]

/-- When the query time lies inside the overall segment range, the binary
search finds a containing segment: starting from a window whose outer
flanks are already excluded, it returns an in-range index whose segment
interval contains the query time. -/
theorem bsearchLoop_containing (segs : List SegmentData) (time : ℚ)
    (hse : ∀ j : ℕ, j < segs.length →
      (segs.getD j default).startTime ≤ (segs.getD j default).endTime)
    (hcont : ∀ j : ℕ, j + 1 < segs.length →
      (segs.getD (j + 1) default).startTime = (segs.getD j default).endTime)
    (hglo : (segs.getD 0 default).startTime ≤ time)
    (hghi : time ≤ (segs.getD (segs.length - 1) default).endTime)
    (hn : 1 ≤ segs.length) :
    ∀ left right : ℤ,
      0 ≤ left → right ≤ (segs.length : ℤ) - 1 →
      (left = 0 ∨ ((left - 1).toNat < segs.length ∧
        (segs.getD (left - 1).toNat default).endTime < time)) →
      (right = (segs.length : ℤ) - 1 ∨ (0 ≤ right + 1 ∧
        (right + 1).toNat < segs.length ∧
        time < (segs.getD (right + 1).toNat default).startTime)) →
      ∃ j : ℕ, bsearchLoop segs time left right = (j : ℤ) ∧
        j < segs.length ∧ (segs.getD j default).startTime ≤ time ∧
        time ≤ (segs.getD j default).endTime := by
  intro left right
  induction left, right using bsearchLoop.induct segs time with
  | case1 left right h hc ih =>
      intro hl hr hL hR
      rw [bsearchLoop.eq_def, dif_pos h, if_pos hc]
      refine ih hl (by omega) hL (Or.inr ⟨by omega, by omega, ?_⟩)
      have he : ((left + right) / 2 - 1 + 1).toNat = ((left + right) / 2).toNat := by
        omega
      rwa [he]
  | case2 left right h hc1 hc2 ih =>
      intro hl hr hL hR
      rw [bsearchLoop.eq_def, dif_pos h, if_neg hc1, if_pos hc2]
      refine ih (by omega) hr (Or.inr ⟨?_, ?_⟩) hR <;>
        rw [show ((left + right) / 2 + 1 - 1).toNat =
          ((left + right) / 2).toNat from by omega]
      · omega
      · exact hc2
  | case3 left right h hc1 hc2 =>
      intro hl hr hL hR
      rw [bsearchLoop.eq_def, dif_pos h, if_neg hc1, if_neg hc2]
      exact ⟨((left + right) / 2).toNat, by omega, by omega,
        not_lt.mp hc1, not_lt.mp hc2⟩
  | case4 left right h =>
      intro hl hr hL hR
      exfalso
      rcases hL with hl0 | ⟨hLb, hLt⟩
      · rcases hR with hr1 | ⟨hRp, hRb, hRt⟩
        · omega
        · have hr0 : (right + 1).toNat = 0 := by omega
          rw [hr0] at hRt
          linarith
      · rcases hR with hr1 | ⟨hRp, hRb, hRt⟩
        · have hle : (left - 1).toNat = segs.length - 1 := by omega
          rw [hle] at hLt
          linarith
        · rcases Int.lt_or_le (right + 1) left with hlt | hge
          · -- right + 1 ≤ left - 1 : starts are monotone up to left - 1
            have hmono := segStarts_mono segs hse hcont (right + 1).toNat
              (left - 1).toNat (by omega) hLb
            have hend := hse (left - 1).toNat hLb
            linarith
          · -- right + 1 = left : contiguity glues the two flanks
            have heq : (right + 1).toNat = (left - 1).toNat + 1 ∨
                ((right + 1).toNat = 0 ∧ left = 0) := by omega
            rcases heq with heq | ⟨heq, hl0⟩
            · rw [heq] at hRt
              rw [hcont (left - 1).toNat (by omega)] at hRt
              linarith
            · rw [heq] at hRt
              have h0 : (left - 1).toNat = 0 := by omega
              rw [h0] at hLt
              have := hse 0 (by omega)
              linarith

-- ### Facts about the derived segment array needed by findSegment

theorem buildSegments_se {kfs : List KeyFrame}
    (hst : strictTimesB kfs = true) :
    ∀ j : ℕ, j < (buildSegments kfs).length →
      ((buildSegments kfs).getD j default).startTime ≤
        ((buildSegments kfs).getD j default).endTime := by
  intro j hj
  rw [buildSegments_length] at hj
  rw [buildSegments_getD hj, buildSegment_startTime, buildSegment_endTime]
  exact le_of_lt (tmAt_adj hst (by omega))

theorem buildSegments_contig (kfs : List KeyFrame) :
    ∀ j : ℕ, j + 1 < (buildSegments kfs).length →
      ((buildSegments kfs).getD (j + 1) default).startTime =
        ((buildSegments kfs).getD j default).endTime := by
  intro j hj
  rw [buildSegments_length] at hj
  rw [buildSegments_getD (by omega), buildSegments_getD (by omega),
    buildSegment_startTime, buildSegment_endTime]

/-- Any segment whose interval reaches a query time at or past the final
keyframe time must be the final segment. -/
theorem containing_last {kfs : List KeyFrame} {time : ℚ}
    (hst : strictTimesB kfs = true) (hn : 2 ≤ kfs.length) {j : ℕ}
    (hj : j < kfs.length - 1)
    (htime : tmAt kfs (kfs.length - 1) ≤ time)
    (hcontain : time ≤ (buildSegment kfs j).endTime) :
    j = kfs.length - 2 := by
  rw [buildSegment_endTime] at hcontain
  by_contra hne
  have hlt : j + 1 < kfs.length - 1 := by omega
  have := tmAt_mono_lt hst (show j + 1 < kfs.length - 1 from hlt) (by omega)
  linarith

/-- Any segment whose interval starts at or before the first keyframe time
must be segment 0. -/
theorem containing_first {kfs : List KeyFrame} {time : ℚ}
    (hst : strictTimesB kfs = true) {j : ℕ}
    (hj : j < kfs.length - 1)
    (htime : time ≤ tmAt kfs 0)
    (hcontain : (buildSegment kfs j).startTime ≤ time) :
    j = 0 := by
  rw [buildSegment_startTime] at hcontain
  by_contra hne
  have := tmAt_mono_lt hst (show 0 < j from by omega) (by omega)
  linarith

/-- A segment containing the exact time of interior keyframe `i` is either
segment `i - 1` or segment `i`. -/
theorem containing_interior {kfs : List KeyFrame}
    (hst : strictTimesB kfs = true) {i j : ℕ}
    (hi0 : 0 < i) (hi1 : i < kfs.length - 1)
    (hj : j < kfs.length - 1)
    (hs : (buildSegment kfs j).startTime ≤ tmAt kfs i)
    (he : tmAt kfs i ≤ (buildSegment kfs j).endTime) :
    j = i - 1 ∨ j = i := by
  rw [buildSegment_startTime] at hs
  rw [buildSegment_endTime] at he
  have hji : j ≤ i := by
    by_contra hgt
    have := tmAt_mono_lt hst (show i < j from by omega) (by omega)
    linarith
  have hij : i ≤ j + 1 := by
    by_contra hgt
    have := tmAt_mono_lt hst (show j + 1 < i from by omega) (by omega)
    linarith
  omega

-- ### Characterization of findSegment

/-- C10's core: with at least two keyframes and a valid `lastSegment`,
`findSegment` always returns an index within `[0, segmentCount - 1]`,
whatever the query time (no sortedness needed). -/
theorem findSegment_bounds (s : Ctrl) (time : ℚ)
    (hn : 2 ≤ s.keyframes.length)
    (hsz : 1 ≤ s.segments.length)
    (hls0 : 0 ≤ s.lastSegment)
    (hls1 : s.lastSegment < (s.segments.length : ℤ)) :
    0 ≤ findSegment s time ∧
      findSegment s time < (s.segments.length : ℤ) := by
  simp only [findSegment]
  rw [if_neg (by omega)]
  split_ifs with h1 h2 h3
  · exact ⟨hls0, h1.1⟩
  · exact ⟨by omega, h2.1⟩
  · exact ⟨by omega, by omega⟩
  · have := bsearchLoop_mem s.segments time 0 ((s.segments.length : ℤ) - 1)
      (by omega) (by omega) hsz
    omega

/-- For query times at or past the final keyframe's time, `findSegment`
returns the final segment index `n - 2` (never the out-of-range count, so
the "end of animation" branch cannot trigger). -/
theorem findSegment_last (s : Ctrl) (time : ℚ)
    (hsegs : s.segments = buildSegments s.keyframes)
    (hn : 2 ≤ s.keyframes.length)
    (hst : strictTimesB s.keyframes = true)
    (hls0 : 0 ≤ s.lastSegment)
    (hls1 : s.lastSegment < (s.keyframes.length : ℤ) - 1)
    (htime : tmAt s.keyframes (s.keyframes.length - 1) ≤ time) :
    findSegment s time = (s.keyframes.length : ℤ) - 2 := by
  have hlen : s.segments.length = s.keyframes.length - 1 := by
    rw [hsegs, buildSegments_length]
  simp only [findSegment]
  rw [if_neg (by omega)]
  split_ifs with h1 h2 h3
  · obtain ⟨hA, _hB, hC⟩ := h1
    have hjlt : s.lastSegment.toNat < s.keyframes.length - 1 := by omega
    rw [hsegs, buildSegments_getD hjlt] at hC
    have := containing_last hst hn hjlt htime hC
    omega
  · obtain ⟨hA, _hB, hC⟩ := h2
    have hjlt : (s.lastSegment + 1).toNat < s.keyframes.length - 1 := by omega
    rw [hsegs, buildSegments_getD hjlt] at hC
    have := containing_last hst hn hjlt htime hC
    omega
  · obtain ⟨hA, _hB, hC⟩ := h3
    have hjlt : (s.lastSegment - 1).toNat < s.keyframes.length - 1 := by omega
    rw [hsegs, buildSegments_getD hjlt] at hC
    have := containing_last hst hn hjlt htime hC
    omega
  · rw [hsegs]
    rcases eq_or_lt_of_le htime with heq | hlt
    · have hres := bsearchLoop_containing (buildSegments s.keyframes) time
        (buildSegments_se hst) (buildSegments_contig s.keyframes)
        (by
          rw [buildSegments_getD (by omega), buildSegment_startTime]
          exact le_trans (tmAt_mono_le hst (by omega) (by omega)) htime)
        (by
          rw [buildSegments_length, buildSegments_getD (by omega),
            buildSegment_endTime,
            show s.keyframes.length - 1 - 1 + 1 = s.keyframes.length - 1 from
              by omega]
          exact le_of_eq heq.symm)
        (by rw [buildSegments_length]; omega)
        0 ((buildSegments s.keyframes).length - 1) (by omega) (by omega)
        (Or.inl rfl) (Or.inl rfl)
      obtain ⟨j, hjeq, hjlt, _hjs, hje⟩ := hres
      rw [buildSegments_length] at hjlt
      rw [buildSegments_getD hjlt] at hje
      have := containing_last hst hn hjlt htime hje
      rw [hjeq]
      omega
    · have hres := bsearchLoop_all_above (buildSegments s.keyframes) time
        (by
          intro j hj
          rw [buildSegments_length] at hj
          rw [buildSegments_getD hj, buildSegment_endTime]
          exact lt_of_le_of_lt (tmAt_mono_le hst (by omega) (by omega)) hlt)
        (buildSegments_se hst)
        (by rw [buildSegments_length]; omega)
        0 ((buildSegments s.keyframes).length - 1) rfl
      rw [hres, buildSegments_length]
      omega

/-- For query times at or before the first keyframe's time, `findSegment`
returns segment 0. -/
theorem findSegment_first (s : Ctrl) (time : ℚ)
    (hsegs : s.segments = buildSegments s.keyframes)
    (hn : 2 ≤ s.keyframes.length)
    (hst : strictTimesB s.keyframes = true)
    (hls0 : 0 ≤ s.lastSegment)
    (hls1 : s.lastSegment < (s.keyframes.length : ℤ) - 1)
    (htime : time ≤ tmAt s.keyframes 0) :
    findSegment s time = 0 := by
  have hlen : s.segments.length = s.keyframes.length - 1 := by
    rw [hsegs, buildSegments_length]
  simp only [findSegment]
  rw [if_neg (by omega)]
  split_ifs with h1 h2 h3
  · obtain ⟨hA, hB, _hC⟩ := h1
    have hjlt : s.lastSegment.toNat < s.keyframes.length - 1 := by omega
    rw [hsegs, buildSegments_getD hjlt] at hB
    have := containing_first hst hjlt htime hB
    omega
  · obtain ⟨hA, hB, _hC⟩ := h2
    have hjlt : (s.lastSegment + 1).toNat < s.keyframes.length - 1 := by omega
    rw [hsegs, buildSegments_getD hjlt] at hB
    have := containing_first hst hjlt htime hB
    omega
  · obtain ⟨hA, hB, _hC⟩ := h3
    have hjlt : (s.lastSegment - 1).toNat < s.keyframes.length - 1 := by omega
    rw [hsegs, buildSegments_getD hjlt] at hB
    have := containing_first hst hjlt htime hB
    omega
  · rw [hsegs]
    rcases eq_or_lt_of_le htime with heq | hlt
    · have hres := bsearchLoop_containing (buildSegments s.keyframes) time
        (buildSegments_se hst) (buildSegments_contig s.keyframes)
        (by
          rw [buildSegments_getD (by omega), buildSegment_startTime]
          exact le_of_eq heq.symm)
        (by
          rw [buildSegments_length, buildSegments_getD (by omega),
            buildSegment_endTime]
          calc time ≤ tmAt s.keyframes 0 := htime
            _ ≤ tmAt s.keyframes (s.keyframes.length - 1 - 1 + 1) :=
              tmAt_mono_le hst (by omega) (by omega))
        (by rw [buildSegments_length]; omega)
        0 ((buildSegments s.keyframes).length - 1) (by omega) (by omega)
        (Or.inl rfl) (Or.inl rfl)
      obtain ⟨j, hjeq, hjlt, hjs, _hje⟩ := hres
      rw [buildSegments_length] at hjlt
      rw [buildSegments_getD hjlt] at hjs
      have := containing_first hst hjlt htime hjs
      rw [hjeq]
      omega
    · exact bsearchLoop_all_below (buildSegments s.keyframes) time
        (by
          intro j hj
          rw [buildSegments_length] at hj
          rw [buildSegments_getD hj, buildSegment_startTime]
          exact lt_of_lt_of_le hlt (tmAt_mono_le hst (by omega) (by omega)))
        0 ((buildSegments s.keyframes).length - 1) rfl (by omega)

/-- For query times within the keyframe time range, `findSegment` returns
a segment whose interval contains the query time. -/
theorem findSegment_containing (s : Ctrl) (time : ℚ)
    (hsegs : s.segments = buildSegments s.keyframes)
    (hn : 2 ≤ s.keyframes.length)
    (hst : strictTimesB s.keyframes = true)
    (hls0 : 0 ≤ s.lastSegment)
    (hls1 : s.lastSegment < (s.keyframes.length : ℤ) - 1)
    (hlo : tmAt s.keyframes 0 ≤ time)
    (hhi : time ≤ tmAt s.keyframes (s.keyframes.length - 1)) :
    ∃ j : ℕ, findSegment s time = (j : ℤ) ∧ j < s.keyframes.length - 1 ∧
      tmAt s.keyframes j ≤ time ∧ time ≤ tmAt s.keyframes (j + 1) := by
  have hlen : s.segments.length = s.keyframes.length - 1 := by
    rw [hsegs, buildSegments_length]
  simp only [findSegment]
  rw [if_neg (by omega)]
  split_ifs with h1 h2 h3
  · obtain ⟨hA, hB, hC⟩ := h1
    have hjlt : s.lastSegment.toNat < s.keyframes.length - 1 := by omega
    rw [hsegs, buildSegments_getD hjlt] at hB hC
    exact ⟨s.lastSegment.toNat, by omega, hjlt, hB, hC⟩
  · obtain ⟨hA, hB, hC⟩ := h2
    have hjlt : (s.lastSegment + 1).toNat < s.keyframes.length - 1 := by omega
    rw [hsegs, buildSegments_getD hjlt] at hB hC
    exact ⟨(s.lastSegment + 1).toNat, by omega, hjlt, hB, hC⟩
  · obtain ⟨hA, hB, hC⟩ := h3
    have hjlt : (s.lastSegment - 1).toNat < s.keyframes.length - 1 := by omega
    rw [hsegs, buildSegments_getD hjlt] at hB hC
    exact ⟨(s.lastSegment - 1).toNat, by omega, hjlt, hB, hC⟩
  · rw [hsegs]
    have hres := bsearchLoop_containing (buildSegments s.keyframes) time
      (buildSegments_se hst) (buildSegments_contig s.keyframes)
      (by rw [buildSegments_getD (by omega), buildSegment_startTime]; exact hlo)
      (by
        rw [buildSegments_length, buildSegments_getD (by omega),
          buildSegment_endTime,
          show s.keyframes.length - 1 - 1 + 1 = s.keyframes.length - 1 from
            by omega]
        exact hhi)
      (by rw [buildSegments_length]; omega)
      0 ((buildSegments s.keyframes).length - 1) (by omega) (by omega)
      (Or.inl rfl) (Or.inl rfl)
    obtain ⟨j, hjeq, hjlt, hjs, hje⟩ := hres
    rw [buildSegments_length] at hjlt
    rw [buildSegments_getD hjlt] at hjs hje
    exact ⟨j, hjeq, hjlt, hjs, hje⟩

-- ### Unfolding lemmas for getTransformationMatrix

theorem precompute_segments_eq (s : Ctrl) (hok : SegOk s)
    (hn : 2 ≤ s.keyframes.length) :
    (precomputeSegments s).segments = buildSegments s.keyframes := by
  simp only [precomputeSegments]
  by_cases hc : s.segmentsCached = true
  · rw [if_pos (by rw [hc]; rfl)]
    exact hok hc
  · rw [if_neg (by simp [hc]; omega)]

theorem precompute_keyframes (s : Ctrl) :
    (precomputeSegments s).keyframes = s.keyframes := by
  simp only [precomputeSegments]
  split <;> rfl

theorem precompute_lastSegment (s : Ctrl) :
    (precomputeSegments s).lastSegment = s.lastSegment := by
  simp only [precomputeSegments]
  split <;> rfl

/-- The returned matrix of the segment-evaluating branch: with at least
two keyframes, a cache miss and an in-range located segment, the result is
the translation of the blended position composed with the selected
rotation, both evaluated on `evalSegment` at `segmentParam`. -/
theorem eval_branch (g : Glm) (s : Ctrl) (time : ℚ) (uq ub : Bool)
    (hn : 2 ≤ s.keyframes.length)
    (hmiss : CacheMiss s time)
    (hseg : findSegment (precomputeSegments s) time <
      ((precomputeSegments s).segments.length : ℤ)) :
    (getTransformationMatrix g s time uq ub).1 =
      M4.translate
          (if ub then
            fastBSplinePosition (segmentParam time (evalSegment s time))
              (evalSegment s time)
          else
            fastCatmullRomPosition (segmentParam time (evalSegment s time))
              (evalSegment s time)) *
        (if uq then
          mat4_cast (slerp g (evalSegment s time).q1 (evalSegment s time).q2
            (segmentParam time (evalSegment s time)))
        else
          g.eulerRotDeg
            (if ub then
              fastBSplineEuler (segmentParam time (evalSegment s time))
                (evalSegment s time)
            else
              fastCatmullRomEuler (segmentParam time (evalSegment s time))
                (evalSegment s time))) := by
  have hne : ¬ s.keyframes = [] := by
    intro h
    rw [h] at hn
    simp at hn
  simp only [getTransformationMatrix]
  rw [if_neg hne, if_neg hmiss, if_neg (by omega : ¬ s.keyframes.length = 1),
    if_neg (not_le.mpr hseg)]
  rfl

/-- The single-keyframe early return. -/
theorem eval_single (g : Glm) (s : Ctrl) (time : ℚ) (uq ub : Bool)
    (h1 : s.keyframes.length = 1)
    (hmiss : CacheMiss s time) :
    (getTransformationMatrix g s time uq ub).1 =
      M4.translate (s.keyframes.getD 0 default).position *
        keyframeRotation g (s.keyframes.getD 0 default) uq := by
  have hne : ¬ s.keyframes = [] := by
    intro h
    rw [h] at h1
    simp at h1
  simp only [getTransformationMatrix]
  rw [if_neg hne, if_neg hmiss, if_pos h1]

-- ### The active segment and parameter at the clamped ends

theorem eulerRotDeg_normalizeAngles {g : Glm} (hgp : EulerPeriodic g)
    (w v : V3) :
    g.eulerRotDeg (normalizeAngles w v) = g.eulerRotDeg w := by
  apply hgp
  obtain ⟨i, hi⟩ := normAngle_multiple w.x v.x
  obtain ⟨j, hj⟩ := normAngle_multiple w.y v.y
  obtain ⟨k, hk⟩ := normAngle_multiple w.z v.z
  exact ⟨i, j, k, hi, hj, hk⟩

theorem evalSegment_eq_last (s : Ctrl) (time : ℚ)
    (hok : SegOk s)
    (hn : 2 ≤ s.keyframes.length)
    (hst : strictTimesB s.keyframes = true)
    (hls0 : 0 ≤ s.lastSegment)
    (hls1 : s.lastSegment < (s.keyframes.length : ℤ) - 1)
    (htime : tmAt s.keyframes (s.keyframes.length - 1) ≤ time) :
    findSegment (precomputeSegments s) time = (s.keyframes.length : ℤ) - 2 ∧
    evalSegment s time = buildSegment s.keyframes (s.keyframes.length - 2) := by
  have hfs : findSegment (precomputeSegments s) time =
      (s.keyframes.length : ℤ) - 2 := by
    have h := findSegment_last (precomputeSegments s) time
      (by rw [precompute_segments_eq s hok hn, precompute_keyframes])
      (by rw [precompute_keyframes]; exact hn)
      (by rw [precompute_keyframes]; exact hst)
      (by rw [precompute_lastSegment]; exact hls0)
      (by rw [precompute_lastSegment, precompute_keyframes]; exact hls1)
      (by rw [precompute_keyframes]; exact htime)
    rwa [precompute_keyframes] at h
  refine ⟨hfs, ?_⟩
  rw [evalSegment, hfs, precompute_segments_eq s hok hn,
    show (((s.keyframes.length : ℤ) - 2)).toNat = s.keyframes.length - 2 from
      by omega,
    buildSegments_getD (by omega)]

theorem evalSegment_eq_first (s : Ctrl) (time : ℚ)
    (hok : SegOk s)
    (hn : 2 ≤ s.keyframes.length)
    (hst : strictTimesB s.keyframes = true)
    (hls0 : 0 ≤ s.lastSegment)
    (hls1 : s.lastSegment < (s.keyframes.length : ℤ) - 1)
    (htime : time ≤ tmAt s.keyframes 0) :
    findSegment (precomputeSegments s) time = 0 ∧
    evalSegment s time = buildSegment s.keyframes 0 := by
  have hfs : findSegment (precomputeSegments s) time = 0 := by
    have h := findSegment_first (precomputeSegments s) time
      (by rw [precompute_segments_eq s hok hn, precompute_keyframes])
      (by rw [precompute_keyframes]; exact hn)
      (by rw [precompute_keyframes]; exact hst)
      (by rw [precompute_lastSegment]; exact hls0)
      (by rw [precompute_lastSegment, precompute_keyframes]; exact hls1)
      (by rw [precompute_keyframes]; exact htime)
    exact h
  refine ⟨hfs, ?_⟩
  rw [evalSegment, hfs, precompute_segments_eq s hok hn]
  exact buildSegments_getD (by omega)

theorem segmentParam_last {kfs : List KeyFrame} {time : ℚ}
    (hst : strictTimesB kfs = true) (hn : 2 ≤ kfs.length)
    (htime : tmAt kfs (kfs.length - 1) ≤ time) :
    segmentParam time (buildSegment kfs (kfs.length - 2)) = 1 := by
  have hadj := tmAt_adj hst
    (show (kfs.length - 2) + 1 < kfs.length from by omega)
  have hd : 0 < (buildSegment kfs (kfs.length - 2)).duration := by
    rw [buildSegment_duration]
    linarith
  rw [segmentParam, if_pos hd]
  apply clampQ_of_one_le
  rw [one_le_div hd, buildSegment_duration, buildSegment_startTime,
    show kfs.length - 2 + 1 = kfs.length - 1 from by omega]
  have h2 : tmAt kfs (kfs.length - 2 + 1) = tmAt kfs (kfs.length - 1) := by
    rw [show kfs.length - 2 + 1 = kfs.length - 1 from by omega]
  linarith

theorem segmentParam_first {kfs : List KeyFrame} {time : ℚ}
    (hst : strictTimesB kfs = true) (hn : 2 ≤ kfs.length)
    (htime : time ≤ tmAt kfs 0) :
    segmentParam time (buildSegment kfs 0) = 0 := by
  have hadj := tmAt_adj hst (show 0 + 1 < kfs.length from by omega)
  have hd : 0 < (buildSegment kfs 0).duration := by
    rw [buildSegment_duration]
    linarith
  rw [segmentParam, if_pos hd]
  apply clampQ_of_le_zero
  rw [div_nonpos_iff]
  right
  rw [buildSegment_duration, buildSegment_startTime]
  constructor <;> linarith

-- ### Claim theorems

/-- C1 (amended): for every store with at least one keyframe, strictly
increasing keyframe times, a consistent evaluator state and a query-cache
miss, and for every query time at or after the last keyframe's time,
`getTransformationMatrix` under the **Catmull-Rom** spline family returns
exactly the last keyframe's pose (translation of its position composed
with its rotation), under both orientation modes.  (The original claim
additionally asserted this for the B-spline family, which is false: see
the counterexample; the clamp evaluates the final segment at parameter 1,
where only the Catmull-Rom blend is interpolating.) -/
theorem evaluate_clamps_to_last_pose_catmullRom
    (g : Glm) (s : Ctrl) (time : ℚ) (uq : Bool)
    (hgp : EulerPeriodic g) (hgs : SlerpExact g)
    (hok : SegOk s)
    (hne : s.keyframes ≠ [])
    (hst : strictTimesB s.keyframes = true)
    (hls0 : 0 ≤ s.lastSegment)
    (hls1 : 2 ≤ s.keyframes.length →
      s.lastSegment < (s.keyframes.length : ℤ) - 1)
    (hmiss : CacheMiss s time)
    (htime : tmAt s.keyframes (s.keyframes.length - 1) ≤ time) :
    (getTransformationMatrix g s time uq false).1 =
      M4.translate (s.keyframes.getLastD default).position *
        keyframeRotation g (s.keyframes.getLastD default) uq := by
  have hlen1 : 1 ≤ s.keyframes.length := List.length_pos.mpr hne
  rcases Nat.lt_or_ge s.keyframes.length 2 with h1 | h2
  · have hone : s.keyframes.length = 1 := by omega
    rw [eval_single g s time uq false hone hmiss, getLastD_eq_getD, hone]
  · obtain ⟨hfs, hseg⟩ :=
      evalSegment_eq_last s time hok h2 hst hls0 (hls1 h2) htime
    have hseglt : findSegment (precomputeSegments s) time <
        ((precomputeSegments s).segments.length : ℤ) := by
      rw [hfs, precompute_segments_eq s hok h2, buildSegments_length]
      omega
    rw [eval_branch g s time uq false h2 hmiss hseglt,
      if_neg Bool.false_ne_true, hseg, segmentParam_last hst h2 htime,
      fastCatmullRomPosition_one, buildSegment_p2,
      show s.keyframes.length - 2 + 1 = s.keyframes.length - 1 from by omega,
      getLastD_eq_getD]
    cases uq with
    | true =>
        rw [if_pos rfl, slerp_one_cast hgs, buildSegment_q2,
          show s.keyframes.length - 2 + 1 = s.keyframes.length - 1 from
            by omega]
        rfl
    | false =>
        rw [if_neg Bool.false_ne_true, if_neg Bool.false_ne_true,
          fastCatmullRomEuler_one, buildSegment_e2,
          eulerRotDeg_normalizeAngles hgp,
          show s.keyframes.length - 2 + 1 = s.keyframes.length - 1 from
            by omega]
        rfl

/-- C2 (amended): for every store with at least one keyframe, strictly
increasing keyframe times, a consistent evaluator state and a query-cache
miss, and for every query time at or before the first keyframe's time,
`getTransformationMatrix` under the **Catmull-Rom** spline family returns
exactly the first keyframe's pose, under both orientation modes.  (The
original claim additionally asserted this for the B-spline family, which
is false: see the counterexample; segment 0 is evaluated at parameter 0,
where only the Catmull-Rom blend is interpolating.) -/
theorem evaluate_clamps_to_first_pose_catmullRom
    (g : Glm) (s : Ctrl) (time : ℚ) (uq : Bool)
    (hgs : SlerpExact g)
    (hok : SegOk s)
    (hne : s.keyframes ≠ [])
    (hst : strictTimesB s.keyframes = true)
    (hls0 : 0 ≤ s.lastSegment)
    (hls1 : 2 ≤ s.keyframes.length →
      s.lastSegment < (s.keyframes.length : ℤ) - 1)
    (hmiss : CacheMiss s time)
    (htime : time ≤ tmAt s.keyframes 0) :
    (getTransformationMatrix g s time uq false).1 =
      M4.translate (s.keyframes.getD 0 default).position *
        keyframeRotation g (s.keyframes.getD 0 default) uq := by
  have hlen1 : 1 ≤ s.keyframes.length := List.length_pos.mpr hne
  rcases Nat.lt_or_ge s.keyframes.length 2 with h1 | h2
  · have hone : s.keyframes.length = 1 := by omega
    rw [eval_single g s time uq false hone hmiss]
  · obtain ⟨hfs, hseg⟩ :=
      evalSegment_eq_first s time hok h2 hst hls0 (hls1 h2) htime
    have hseglt : findSegment (precomputeSegments s) time <
        ((precomputeSegments s).segments.length : ℤ) := by
      rw [hfs, precompute_segments_eq s hok h2, buildSegments_length]
      omega
    rw [eval_branch g s time uq false h2 hmiss hseglt,
      if_neg Bool.false_ne_true, hseg, segmentParam_first hst h2 htime,
      fastCatmullRomPosition_zero, buildSegment_p1]
    cases uq with
    | true =>
        rw [if_pos rfl, slerp_zero_quat hgs, buildSegment_q1]
        rfl
    | false =>
        rw [if_neg Bool.false_ne_true, fastCatmullRomEuler_zero,
          buildSegment_e1]
        rfl

theorem transCol_translate_mul_cast (p : V3) (q : Quat) :
    transCol (M4.translate p * mat4_cast q) = p := by
  simp only [transCol, M4.mul_def, M4.mul, M4.translate, mat4_cast]
  ext <;> ring

theorem transCol_translate_mul_euler {g : Glm} (haff : EulerAffine g)
    (p : V3) (v : V3) :
    transCol (M4.translate p * g.eulerRotDeg v) = p := by
  obtain ⟨h03, h13, h23, _h30, _h31, _h32, h33⟩ := haff v
  simp only [transCol, M4.mul_def, M4.mul, M4.translate, h03, h13, h23, h33]
  ext <;> ring

theorem linPart_translate_mul_cast (p : V3) (q : Quat) :
    linPart (M4.translate p * mat4_cast q) = mat4_cast q := by
  simp only [linPart, M4.mul_def, M4.mul, M4.translate, mat4_cast]
  ext <;> ring

theorem segmentParam_at_key_start {kfs : List KeyFrame} {i : ℕ}
    (hst : strictTimesB kfs = true) (hi1 : i + 1 < kfs.length) :
    segmentParam (tmAt kfs i) (buildSegment kfs i) = 0 := by
  have hadj := tmAt_adj hst hi1
  have hd : 0 < (buildSegment kfs i).duration := by
    rw [buildSegment_duration]
    linarith
  rw [segmentParam, if_pos hd, buildSegment_startTime, sub_self, zero_div]
  exact clampQ_of_le_zero le_rfl

theorem segmentParam_at_key_end {kfs : List KeyFrame} {i : ℕ}
    (hst : strictTimesB kfs = true) (hi1 : i + 1 < kfs.length) :
    segmentParam (tmAt kfs (i + 1)) (buildSegment kfs i) = 1 := by
  have hadj := tmAt_adj hst hi1
  have hd : 0 < (buildSegment kfs i).duration := by
    rw [buildSegment_duration]
    linarith
  rw [segmentParam, if_pos hd, buildSegment_startTime, buildSegment_duration,
    div_self (by linarith : tmAt kfs (i + 1) - tmAt kfs i ≠ 0)]
  exact clampQ_of_one_le le_rfl

/-- C3: under the Catmull-Rom family, with strictly increasing keyframe
times, a consistent evaluator state and a cache miss, evaluating at the
exact time of an interior keyframe returns that keyframe's position in
the translation column, because the Catmull-Rom blend is interpolating:
at parameter 0 it equals `p1` and at 1 it equals `p2`, the segment's own
endpoint positions (stated as the second conjunct). -/
theorem catmullRom_interpolates_interior_keyframes
    (g : Glm) (s : Ctrl) (i : ℕ) (uq : Bool)
    (haff : EulerAffine g)
    (hok : SegOk s)
    (hst : strictTimesB s.keyframes = true)
    (hls0 : 0 ≤ s.lastSegment)
    (hls1 : s.lastSegment < (s.keyframes.length : ℤ) - 1)
    (hmiss : CacheMiss s (tmAt s.keyframes i))
    (hi0 : 0 < i) (hi1 : i < s.keyframes.length - 1) :
    transCol (getTransformationMatrix g s (tmAt s.keyframes i) uq false).1 =
      (s.keyframes.getD i default).position ∧
    (∀ seg : SegmentData,
      fastCatmullRomPosition 0 seg = seg.p1 ∧
      fastCatmullRomPosition 1 seg = seg.p2) := by
  have h2 : 2 ≤ s.keyframes.length := by omega
  have hcont := findSegment_containing (precomputeSegments s)
    (tmAt s.keyframes i)
    (by rw [precompute_segments_eq s hok h2, precompute_keyframes])
    (by rw [precompute_keyframes]; exact h2)
    (by rw [precompute_keyframes]; exact hst)
    (by rw [precompute_lastSegment]; exact hls0)
    (by rw [precompute_lastSegment, precompute_keyframes]; exact hls1)
    (by rw [precompute_keyframes]; exact tmAt_mono_le hst (by omega) (by omega))
    (by rw [precompute_keyframes]; exact tmAt_mono_le hst (by omega) (by omega))
  rw [precompute_keyframes] at hcont
  obtain ⟨j, hjeq, hjlt, hjs, hje⟩ := hcont
  have hseglt : findSegment (precomputeSegments s) (tmAt s.keyframes i) <
      ((precomputeSegments s).segments.length : ℤ) := by
    rw [hjeq, precompute_segments_eq s hok h2, buildSegments_length]
    omega
  have hseg : evalSegment s (tmAt s.keyframes i) =
      buildSegment s.keyframes j := by
    rw [evalSegment, hjeq, precompute_segments_eq s hok h2, Int.toNat_natCast,
      buildSegments_getD hjlt]
  have hjcases : j = i - 1 ∨ j = i :=
    containing_interior hst hi0 hi1 hjlt
      (by rw [buildSegment_startTime]; exact hjs)
      (by rw [buildSegment_endTime]; exact hje)
  refine ⟨?_, fun seg =>
    ⟨fastCatmullRomPosition_zero seg, fastCatmullRomPosition_one seg⟩⟩
  rw [eval_branch g s (tmAt s.keyframes i) uq false h2 hmiss hseglt,
    if_neg Bool.false_ne_true, hseg]
  have hpos : fastCatmullRomPosition
      (segmentParam (tmAt s.keyframes i) (buildSegment s.keyframes j))
      (buildSegment s.keyframes j) = (s.keyframes.getD i default).position := by
    rcases hjcases with hj1 | hj2
    · have hidx : i = j + 1 := by omega
      rw [hidx, segmentParam_at_key_end hst (by omega),
        fastCatmullRomPosition_one, buildSegment_p2]
    · rw [hj2, segmentParam_at_key_start hst (by omega),
        fastCatmullRomPosition_zero, buildSegment_p1]
  rw [hpos]
  cases uq with
  | true => rw [if_pos rfl]; exact transCol_translate_mul_cast _ _
  | false => rw [if_neg Bool.false_ne_true]; exact transCol_translate_mul_euler haff _ _

/-- C8: in quaternion orientation mode, every segment-evaluating query
(at least two keyframes, cache miss; the located segment is in range by
the `lastSegment` invariant) produces a transform whose rotation part is
exactly `mat4_cast` of the 2-point slerp of the active segment's boundary
quaternions at the normalized parameter, for **both** spline families;
and that rotation is exactly `q1`'s at parameter 0 and exactly `q2`'s at
parameter 1. -/
theorem quaternionMode_rotation_is_slerp
    (g : Glm) (s : Ctrl) (time : ℚ)
    (hgs : SlerpExact g)
    (hok : SegOk s)
    (hn : 2 ≤ s.keyframes.length)
    (hls0 : 0 ≤ s.lastSegment)
    (hls1 : s.lastSegment < (s.keyframes.length : ℤ) - 1)
    (hmiss : CacheMiss s time) :
    (∀ ub : Bool,
      linPart (getTransformationMatrix g s time true ub).1 =
        mat4_cast (slerp g (evalSegment s time).q1 (evalSegment s time).q2
          (segmentParam time (evalSegment s time)))) ∧
    (∀ x y : Quat, mat4_cast (slerp g x y 0) = mat4_cast x) ∧
    (∀ x y : Quat, mat4_cast (slerp g x y 1) = mat4_cast y) := by
  have hlen : (precomputeSegments s).segments.length =
      s.keyframes.length - 1 := by
    rw [precompute_segments_eq s hok hn, buildSegments_length]
  have hb := findSegment_bounds (precomputeSegments s) time
    (by rw [precompute_keyframes]; exact hn)
    (by rw [hlen]; omega)
    (by rw [precompute_lastSegment]; exact hls0)
    (by rw [precompute_lastSegment, hlen]; omega)
  refine ⟨fun ub => ?_, fun x y => by rw [slerp_zero_quat hgs],
    fun x y => slerp_one_cast hgs x y⟩
  rw [eval_branch g s time true ub hn hmiss hb.2, if_pos rfl]
  exact linPart_translate_mul_cast _ _

/-- C4: `normalizeAngles` per axis: input 370 with reference 0 gives 10;
input -190 with reference 0 gives 170; and for every input and reference
the result is within 180° of the reference on each axis and differs from
the input only by integer multiples of 360°. -/
theorem normalizeAngles_contract :
    normAngle 370 0 = 10 ∧ normAngle (-190) 0 = 170 ∧
    ∀ a r : V3,
      (|(normalizeAngles a r).x - r.x| ≤ 180 ∧
       |(normalizeAngles a r).y - r.y| ≤ 180 ∧
       |(normalizeAngles a r).z - r.z| ≤ 180) ∧
      (∃ i j k : ℤ,
        (normalizeAngles a r).x = a.x + 360 * i ∧
        (normalizeAngles a r).y = a.y + 360 * j ∧
        (normalizeAngles a r).z = a.z + 360 * k) := by
  refine ⟨?_, ?_, ?_⟩
  · rw [normAngle, subLoop_step (by norm_num), subLoop_of_le (by norm_num),
      addLoop_of_ge (by norm_num)]
    norm_num
  · rw [normAngle, subLoop_of_le (by norm_num), addLoop_step (by norm_num),
      addLoop_of_ge (by norm_num)]
    norm_num
  · intro a r
    refine ⟨⟨normAngle_bounds a.x r.x, normAngle_bounds a.y r.y,
      normAngle_bounds a.z r.z⟩, ?_⟩
    obtain ⟨i, hi⟩ := normAngle_multiple a.x r.x
    obtain ⟨j, hj⟩ := normAngle_multiple a.y r.y
    obtain ⟨k, hk⟩ := normAngle_multiple a.z r.z
    exact ⟨i, j, k, hi, hj, hk⟩

/-- C5: with a non-empty store, whenever `|time - lastQueryTime| < 1e-4`
and the cached query time is valid (nonnegative, i.e. not the -1
sentinel), `getTransformationMatrix` returns the cached transform
bit-identically and leaves the whole state unchanged (no segment rebuild,
no spline evaluation), for any orientation-mode and spline-family
arguments. -/
theorem cache_hit_returns_cached_transform (g : Glm) (s : Ctrl) (time : ℚ)
    (uq ub : Bool) (hne : s.keyframes ≠ [])
    (hhit : |time - s.lastTime| < timeEpsilon) (hvalid : 0 ≤ s.lastTime) :
    getTransformationMatrix g s time uq ub = (s.cachedTransform, s) := by
  simp only [getTransformationMatrix]
  rw [if_neg hne, if_pos ⟨hhit, hvalid⟩]

/-- C6: every store mutation — `addKeyFrame`, `addMultipleKeyFrames`,
`clearKeyFrames` — resets `lastTime` to the sentinel -1 and marks the
segment array stale, so the cache-hit condition of the next
`getTransformationMatrix` (which requires `0 ≤ lastTime`) cannot hold. -/
theorem mutations_invalidate_caches :
    ∀ (s : Ctrl) (kf : KeyFrame) (kfs : List KeyFrame) (t : ℚ),
      ((addKeyFrame s kf).lastTime = -1 ∧
        (addKeyFrame s kf).segmentsCached = false ∧
        ¬ (|t - (addKeyFrame s kf).lastTime| < timeEpsilon ∧
           0 ≤ (addKeyFrame s kf).lastTime)) ∧
      ((addMultipleKeyFrames s kfs).lastTime = -1 ∧
        (addMultipleKeyFrames s kfs).segmentsCached = false ∧
        ¬ (|t - (addMultipleKeyFrames s kfs).lastTime| < timeEpsilon ∧
           0 ≤ (addMultipleKeyFrames s kfs).lastTime)) ∧
      ((clearKeyFrames s).lastTime = -1 ∧
        (clearKeyFrames s).segmentsCached = false ∧
        ¬ (|t - (clearKeyFrames s).lastTime| < timeEpsilon ∧
           0 ≤ (clearKeyFrames s).lastTime)) := by
  intro s kf kfs t
  refine ⟨⟨rfl, rfl, fun h => ?_⟩, ⟨rfl, rfl, fun h => ?_⟩,
    ⟨rfl, rfl, fun h => ?_⟩⟩ <;>
    · have := h.2
      norm_num [addKeyFrame, addMultipleKeyFrames, clearKeyFrames] at this

/-- C7 (amended): for every starting state and every **non-empty** list of
keyframes, `addMultipleKeyFrames` leaves the controller in exactly the
same state as folding `addKeyFrame` over the list; hence every subsequent
query behaves identically.  (For the empty list the two differ: the batch
call still invalidates the caches while zero single appends change
nothing — see the counterexample.) -/
theorem addMultiple_eq_foldl_addKeyFrame (s : Ctrl) (ks : List KeyFrame)
    (hne : ks ≠ []) :
    addMultipleKeyFrames s ks = List.foldl addKeyFrame s ks := by
  induction ks generalizing s with
  | nil => exact absurd rfl hne
  | cons a l ih =>
      cases l with
      | nil => simp [addMultipleKeyFrames, addKeyFrame]
      | cons b m =>
          rw [List.foldl_cons, ← ih (addKeyFrame s a) (by simp)]
          simp [addMultipleKeyFrames, addKeyFrame]

/-- C10: whenever the store holds at least two keyframes, the segment
array is built, and the `lastSegment` invariant (`0 ≤ lastSegment <
segmentCount`) holds, `findSegment` returns an index in
`[0, segmentCount - 1]` for **every** query time; in particular the
`currentSegment >= segments.size()` guard in `getTransformationMatrix` is
false, so the end-of-animation branch is unreachable and the following
segment access is in bounds. -/
theorem findSegment_always_in_range (s : Ctrl) (time : ℚ)
    (hn : 2 ≤ s.keyframes.length)
    (_hcached : s.segmentsCached = true)
    (hbuilt : s.segments = buildSegments s.keyframes)
    (hls0 : 0 ≤ s.lastSegment)
    (hls1 : s.lastSegment < (s.segments.length : ℤ)) :
    0 ≤ findSegment s time ∧
      findSegment s time < (s.segments.length : ℤ) ∧
      ¬ (findSegment s time ≥ (s.segments.length : ℤ)) := by
  have hsz : 1 ≤ s.segments.length := by
    rw [hbuilt, buildSegments_length]
    omega
  have h := findSegment_bounds s time hn hsz hls0 hls1
  exact ⟨h.1, h.2, not_le.mpr h.2⟩

-- ### Concrete instances for witnesses and counterexamples

/-- A concrete instantiation of the abstract GLM primitives (any functions
satisfying the stated trigonometric hypotheses will do for the structural
theorems). -/
def gW : Glm := ⟨id, fun _ => 1, fun _ => M4.identity, fun _ => ⟨1, 0, 0, 0⟩⟩

theorem gW_slerpExact : SlerpExact gW := ⟨rfl, fun _ => one_ne_zero⟩

theorem gW_eulerPeriodic : EulerPeriodic gW := fun _ _ _ => rfl

theorem gW_eulerAffine : EulerAffine gW :=
  fun _ => ⟨rfl, rfl, rfl, rfl, rfl, rfl, rfl⟩

def kfA : KeyFrame := ⟨⟨0, 0, 0⟩, ⟨0, 0, 0⟩, ⟨1, 0, 0, 0⟩, 0⟩

def kfB : KeyFrame := ⟨⟨6, 0, 0⟩, ⟨0, 0, 0⟩, ⟨1, 0, 0, 0⟩, 1⟩

def sW : Ctrl := ⟨[kfA, kfB], 0, -1, M4.identity, [], false⟩

/-- The single derived segment of `sW`. -/
def segW : SegmentData :=
  ⟨⟨0, 0, 0⟩, ⟨0, 0, 0⟩, ⟨6, 0, 0⟩, ⟨6, 0, 0⟩,
   ⟨0, 0, 0⟩, ⟨0, 0, 0⟩, ⟨0, 0, 0⟩, ⟨0, 0, 0⟩,
   ⟨1, 0, 0, 0⟩, ⟨1, 0, 0, 0⟩, 0, 1, 1⟩

theorem buildSegment_sW : buildSegment [kfA, kfB] 0 = segW := by
  show (⟨⟨0, 0, 0⟩, ⟨0, 0, 0⟩, ⟨6, 0, 0⟩, ⟨6, 0, 0⟩,
    normalizeAngles ⟨0, 0, 0⟩ ⟨0, 0, 0⟩, ⟨0, 0, 0⟩,
    normalizeAngles ⟨0, 0, 0⟩ ⟨0, 0, 0⟩,
    normalizeAngles ⟨0, 0, 0⟩ (normalizeAngles ⟨0, 0, 0⟩ ⟨0, 0, 0⟩),
    ⟨1, 0, 0, 0⟩, ⟨1, 0, 0, 0⟩, 0, 1, 1 - 0⟩ : SegmentData) = segW
  rw [normalizeAngles_self, normalizeAngles_self,
    show (1 : ℚ) - 0 = 1 from by norm_num]
  rfl

theorem buildSegments_sW : buildSegments [kfA, kfB] = [segW] := by
  rw [show buildSegments [kfA, kfB] = [buildSegment [kfA, kfB] 0] from rfl,
    buildSegment_sW]

theorem precompute_sW :
    precomputeSegments sW = ⟨[kfA, kfB], 0, -1, M4.identity, [segW], true⟩ := by
  rw [show precomputeSegments sW =
    { sW with segments := buildSegments sW.keyframes,
              segmentsCached := true } from rfl]
  rw [show sW.keyframes = [kfA, kfB] from rfl, buildSegments_sW]
  rfl

theorem findSegment_sW_two : findSegment (precomputeSegments sW) 2 = 0 := by
  rw [precompute_sW]
  simp only [findSegment]
  rw [if_neg (by norm_num), if_neg (by decide), if_neg (by decide),
    if_neg (by decide), bsearchLoop.eq_def, dif_pos (by decide),
    if_neg (by decide), if_pos (by decide), bsearchLoop.eq_def,
    dif_neg (by decide)]
  decide

theorem findSegment_sW_zero : findSegment (precomputeSegments sW) 0 = 0 := by
  rw [precompute_sW]
  simp only [findSegment]
  rw [if_neg (by norm_num), if_pos (by decide)]

theorem evalSegment_sW_two : evalSegment sW 2 = segW := by
  rw [evalSegment, findSegment_sW_two, precompute_sW]
  rfl

theorem evalSegment_sW_zero : evalSegment sW 0 = segW := by
  rw [evalSegment, findSegment_sW_zero, precompute_sW]
  rfl

theorem segmentParam_sW_two : segmentParam 2 segW = 1 := by
  rw [segmentParam, if_pos (by norm_num [segW])]
  norm_num [segW, clampQ]

theorem segmentParam_sW_zero : segmentParam 0 segW = 0 := by
  rw [segmentParam, if_pos (by norm_num [segW])]
  norm_num [segW, clampQ]

theorem slerp_gW_id (a : ℚ) : slerp gW ⟨1, 0, 0, 0⟩ ⟨1, 0, 0, 0⟩ a =
    ⟨1, 0, 0, 0⟩ := by
  rw [slerp]
  norm_num [Quat.dot, glmEps, mixQ]

/-- Counterexample to C1 as frozen: with keyframes at positions (0,0,0)
and (6,0,0) (times 0 and 1, identity orientations), the **B-spline**
family evaluated at time 2 — beyond the last keyframe — yields translation
x = 5, not the last keyframe's 6: the claim fails for the B-spline family. -/
theorem evaluate_beyond_last_bspline_counterexample :
    (getTransformationMatrix gW sW 2 true true).1 ≠
      M4.translate kfB.position * keyframeRotation gW kfB true := by
  have hmiss : CacheMiss sW 2 := fun h => absurd h.2 (by norm_num [sW])
  have hseglt : findSegment (precomputeSegments sW) 2 <
      ((precomputeSegments sW).segments.length : ℤ) := by
    rw [findSegment_sW_two, precompute_sW]
    decide
  rw [eval_branch gW sW 2 true true (by decide) hmiss hseglt,
    if_pos rfl, if_pos rfl, evalSegment_sW_two, segmentParam_sW_two,
    show segW.q1 = ⟨1, 0, 0, 0⟩ from rfl,
    show segW.q2 = ⟨1, 0, 0, 0⟩ from rfl, slerp_gW_id,
    show fastBSplinePosition 1 segW = ⟨5, 0, 0⟩ from by
      simp only [fastBSplinePosition, segW, V3_smul_def, V3_add_def]
      ext <;> norm_num]
  intro h
  have h03 := congrArg M4.m03 h
  norm_num [M4.mul_def, M4.mul, M4.translate, mat4_cast, keyframeRotation,
    kfB, gW] at h03

/-- Counterexample to C2 as frozen: the same store under the **B-spline**
family evaluated at time 0 — the first keyframe's time — yields
translation x = 1, not the first keyframe's 0. -/
theorem evaluate_at_first_bspline_counterexample :
    (getTransformationMatrix gW sW 0 true true).1 ≠
      M4.translate kfA.position * keyframeRotation gW kfA true := by
  have hmiss : CacheMiss sW 0 := fun h => absurd h.2 (by norm_num [sW])
  have hseglt : findSegment (precomputeSegments sW) 0 <
      ((precomputeSegments sW).segments.length : ℤ) := by
    rw [findSegment_sW_zero, precompute_sW]
    decide
  rw [eval_branch gW sW 0 true true (by decide) hmiss hseglt,
    if_pos rfl, if_pos rfl, evalSegment_sW_zero, segmentParam_sW_zero,
    show segW.q1 = ⟨1, 0, 0, 0⟩ from rfl,
    show segW.q2 = ⟨1, 0, 0, 0⟩ from rfl, slerp_gW_id,
    show fastBSplinePosition 0 segW = ⟨1, 0, 0⟩ from by
      simp only [fastBSplinePosition, segW, V3_smul_def, V3_add_def]
      ext <;> norm_num]
  intro h
  have h03 := congrArg M4.m03 h
  norm_num [M4.mul_def, M4.mul, M4.translate, mat4_cast, keyframeRotation,
    kfA, gW] at h03

/-- Counterexample to C7 as frozen: on a state whose segment cache is
fresh, `addMultipleKeyFrames` with the **empty** list still invalidates
the caches, while zero `addKeyFrame` calls leave the state untouched. -/
theorem addMultiple_empty_counterexample :
    addMultipleKeyFrames ⟨[], 0, -1, M4.identity, [], true⟩ [] ≠
      List.foldl addKeyFrame ⟨[], 0, -1, M4.identity, [], true⟩ [] := by
  decide

-- ### Witnesses

def kfC : KeyFrame := ⟨⟨3, 1, 0⟩, ⟨0, 0, 0⟩, ⟨1, 0, 0, 0⟩, 2⟩

def s3W : Ctrl := ⟨[kfA, kfB, kfC], 0, -1, M4.identity, [], false⟩

def sHit : Ctrl := ⟨[kfA], 0, 2, M4.translate ⟨1, 2, 3⟩, [], false⟩

def sBuilt : Ctrl := ⟨[kfA, kfB], 0, -1, M4.identity, [segW], true⟩

theorem evaluate_clamps_to_last_pose_catmullRom_witness :
    strictTimesB sW.keyframes = true ∧
    (getTransformationMatrix gW sW 5 true false).1 =
      M4.translate (sW.keyframes.getLastD default).position *
        keyframeRotation gW (sW.keyframes.getLastD default) true :=
  ⟨by decide, evaluate_clamps_to_last_pose_catmullRom gW sW 5 true
    (fun _ _ _ => rfl) ⟨rfl, fun _ => one_ne_zero⟩
    (fun h => absurd h (by decide)) (by decide) (by decide) (by decide)
    (fun _ => by decide) (fun h => absurd h.2 (by norm_num [sW]))
    (by decide)⟩

theorem evaluate_clamps_to_first_pose_catmullRom_witness :
    strictTimesB sW.keyframes = true ∧
    (getTransformationMatrix gW sW (-3) false false).1 =
      M4.translate (sW.keyframes.getD 0 default).position *
        keyframeRotation gW (sW.keyframes.getD 0 default) false :=
  ⟨by decide, evaluate_clamps_to_first_pose_catmullRom gW sW (-3) false
    ⟨rfl, fun _ => one_ne_zero⟩
    (fun h => absurd h (by decide)) (by decide) (by decide) (by decide)
    (fun _ => by decide) (fun h => absurd h.2 (by norm_num [sW]))
    (by decide)⟩

theorem catmullRom_interpolates_interior_keyframes_witness :
    (0 < 1 ∧ 1 < s3W.keyframes.length - 1) ∧
    (transCol
        (getTransformationMatrix gW s3W (tmAt s3W.keyframes 1) true false).1 =
      (s3W.keyframes.getD 1 default).position ∧
    (∀ seg : SegmentData,
      fastCatmullRomPosition 0 seg = seg.p1 ∧
      fastCatmullRomPosition 1 seg = seg.p2)) :=
  ⟨⟨by decide, by decide⟩,
    catmullRom_interpolates_interior_keyframes gW s3W 1 true
      (fun _ => ⟨rfl, rfl, rfl, rfl, rfl, rfl, rfl⟩)
      (fun h => absurd h (by decide)) (by decide) (by decide) (by decide)
      (fun h => absurd h.2 (by norm_num [s3W, tmAt, kfB, List.getD]))
      (by decide) (by decide)⟩

theorem cache_hit_returns_cached_transform_witness :
    sHit.keyframes ≠ [] ∧
    getTransformationMatrix gW sHit 2 false true =
      (sHit.cachedTransform, sHit) :=
  ⟨by decide, cache_hit_returns_cached_transform gW sHit 2 false true
    (by decide) (by norm_num [sHit, timeEpsilon]) (by norm_num [sHit])⟩

theorem mutations_invalidate_caches_witness :
    (addKeyFrame sW kfA).lastTime = -1 ∧
    (addKeyFrame sW kfA).segmentsCached = false :=
  ⟨(mutations_invalidate_caches sW kfA [] 0).1.1,
   (mutations_invalidate_caches sW kfA [] 0).1.2.1⟩

theorem addMultiple_eq_foldl_addKeyFrame_witness :
    ([kfA] : List KeyFrame) ≠ [] ∧
    addMultipleKeyFrames sW [kfA] = List.foldl addKeyFrame sW [kfA] :=
  ⟨by decide, addMultiple_eq_foldl_addKeyFrame sW [kfA] (by decide)⟩

theorem quaternionMode_rotation_is_slerp_witness :
    (∀ ub : Bool,
      linPart (getTransformationMatrix gW sW (1 / 2) true ub).1 =
        mat4_cast (slerp gW (evalSegment sW (1 / 2)).q1
          (evalSegment sW (1 / 2)).q2
          (segmentParam (1 / 2) (evalSegment sW (1 / 2))))) ∧
    (∀ x y : Quat, mat4_cast (slerp gW x y 0) = mat4_cast x) ∧
    (∀ x y : Quat, mat4_cast (slerp gW x y 1) = mat4_cast y) :=
  quaternionMode_rotation_is_slerp gW sW (1 / 2) ⟨rfl, fun _ => one_ne_zero⟩
    (fun h => absurd h (by decide)) (by decide) (by decide) (by decide)
    (fun h => absurd h.2 (by norm_num [sW]))

theorem findSegment_always_in_range_witness :
    2 ≤ sBuilt.keyframes.length ∧
    (0 ≤ findSegment sBuilt 100 ∧
      findSegment sBuilt 100 < (sBuilt.segments.length : ℤ) ∧
      ¬ (findSegment sBuilt 100 ≥ (sBuilt.segments.length : ℤ))) :=
  ⟨by decide, findSegment_always_in_range sBuilt 100 (by decide) rfl
    buildSegments_sW.symm (by decide) (by decide)⟩

-- ### Embedding of parseKeyFramesFromString (src/motion/Utils.cpp)

/-- Splitting on a delimiter character, modelling the `std::getline(ss,
token, delim)` loop.  (The only difference — a trailing empty token when
the input ends with the delimiter — is invisible to the parser, which
skips empty groups.) -/
def splitOnChar (c : Char) : List Char → List (List Char)
  | [] => [[]]
  | ch :: rest =>
      match splitOnChar c rest with
      | [] => [[]]
      | grp :: grps => if ch = c then [] :: grp :: grps else (ch :: grp) :: grps

/-- Value of a digit string, most significant first. -/
def digitsToNat (ds : List Char) : ℕ :=
  ds.foldl (fun a c => 10 * a + (c.toNat - 48)) 0

/-- Modelled from the GLM-external C++ runtime: `std::stof` on the decimal
subset exercised by this program (optional sign, integer digits, optional
fraction).  `none` models the `std::invalid_argument` exception thrown on
input with no leading numeric prefix, which aborts the program. -/
def stofQ (l : List Char) : Option ℚ :=
  let sign : ℚ :=
    match l with
    | c :: _ => if c = '-' then -1 else 1
    | [] => 1
  let l1 : List Char :=
    match l with
    | c :: r => if c = '-' ∨ c = '+' then r else l
    | [] => l
  let ds := l1.takeWhile fun c => c.isDigit
  let rest := l1.drop ds.length
  let fs : List Char :=
    match rest with
    | c :: r => if c = '.' then r.takeWhile (fun ch => ch.isDigit) else []
    | [] => []
  if ds.isEmpty && fs.isEmpty then none
  else some (sign * ((digitsToNat ds : ℚ) + (digitsToNat fs : ℚ) / 10 ^ fs.length))

/-- Writing component `i` of a `glm::vec3` (`position[coordIndex++]`). -/
def setAxis (v : V3) (i : ℕ) (q : ℚ) : V3 :=
  if i = 0 then { v with x := q }
  else if i = 1 then { v with y := q }
  else { v with z := q }

/-- The `while (std::getline(stream, tok, ',') && idx < 3)` loop filling a
`glm::vec3` from comma-separated tokens: stops on token exhaustion or
after three coordinates; a `stof` failure aborts (`none`).  The C++ vector
starts uninitialized; the claims only exercise fully assigned vectors, and
the model starts from zero. -/
def fillCoords (v : V3) (i : ℕ) : List (List Char) → Option V3
  | [] => some v
  | t :: ts =>
      if i < 3 then
        match stofQ t with
        | none => none
        | some q => fillCoords (setAxis v i q) (i + 1) ts
      else some v

/-- The main parsing loop of `parseKeyFramesFromString`: per
semicolon-group, skip empty groups and groups without a colon, parse the
two coordinate triples, and append a keyframe built through the
Euler-angle `KeyFrame` constructor; the auto-assigned time advances by the
fixed step 2.0 only on success. -/
def collectFrames (g : Glm) : List (List Char) → ℚ → Option (List KeyFrame)
  | [], _ => some []
  | grp :: rest, time =>
      if grp = [] then collectFrames g rest time
      else
        match splitOnChar ':' grp with
        | [] => collectFrames g rest time
        | [_] => collectFrames g rest time
        | posStr :: rotParts =>
            let rotStr := List.intercalate [':'] rotParts
            match fillCoords ⟨0, 0, 0⟩ 0 (splitOnChar ',' posStr) with
            | none => none
            | some position =>
                match fillCoords ⟨0, 0, 0⟩ 0 (splitOnChar ',' rotStr) with
                | none => none
                | some euler =>
                    match collectFrames g rest (time + 2) with
                    | none => none
                    | some frames =>
                        some (KeyFrame.ofEuler g position euler time :: frames)

/-- `parseKeyFramesFromString(keyframeStr, controller)`: reject the empty
string, parse all groups, reject when nothing parsed (store untouched),
otherwise clear the store and batch-add the parsed keyframes.  `none`
models the `std::stof` abort. -/
def parseKeyFramesFromString (g : Glm) (str : List Char) (c : Ctrl) :
    Option (Bool × Ctrl) :=
  if str = [] then some (false, c)
  else
    match collectFrames g (splitOnChar ';' str) 0 with
    | none => none
    | some frames =>
        if frames = [] then some (false, c)
        else some (true, addMultipleKeyFrames (clearKeyFrames c) frames)

theorem stofQ_zero : stofQ ['0'] = some 0 := by
  simp +decide [stofQ, digitsToNat]

theorem stofQ_five : stofQ ['5'] = some 5 := by
  simp +decide [stofQ, digitsToNat]

theorem stofQ_ninety : stofQ ['9', '0'] = some 90 := by
  simp +decide [stofQ, digitsToNat]

theorem fillCoords_three (t1 t2 t3 : List Char) (q1 q2 q3 : ℚ)
    (h1 : stofQ t1 = some q1) (h2 : stofQ t2 = some q2)
    (h3 : stofQ t3 = some q3) :
    fillCoords ⟨0, 0, 0⟩ 0 [t1, t2, t3] = some ⟨q1, q2, q3⟩ := by
  simp +decide [fillCoords, h1, h2, h3, setAxis]

theorem splitOnChar_not_mem {c : Char} :
    ∀ {l : List Char}, c ∉ l → splitOnChar c l = [l] := by
  intro l
  induction l with
  | nil => intro _; rfl
  | cons ch rest ih =>
      intro h
      have h1 : ch ≠ c := fun he => h (he ▸ List.mem_cons_self _ _)
      have h2 : c ∉ rest := fun hm => h (List.mem_cons_of_mem _ hm)
      simp only [splitOnChar, ih h2]
      rw [if_neg h1]

/-- A semicolon group without a colon is skipped (with only a diagnostic)
and consumes no time slot. -/
theorem collectFrames_skip (g : Glm) (grp : List Char)
    (rest : List (List Char)) (time : ℚ) (h : ':' ∉ grp) :
    collectFrames g (grp :: rest) time = collectFrames g rest time := by
  by_cases hg : grp = []
  · simp only [collectFrames, if_pos hg]
  · simp only [collectFrames, if_neg hg, splitOnChar_not_mem h]

theorem collectFrames_all_colonless (g : Glm) :
    ∀ (groups : List (List Char)), (∀ grp ∈ groups, ':' ∉ grp) →
      ∀ time : ℚ, collectFrames g groups time = some [] := by
  intro groups
  induction groups with
  | nil => intro _ _; rfl
  | cons grp rest ih =>
      intro h time
      rw [collectFrames_skip g grp rest time (h grp (List.mem_cons_self _ _))]
      exact ih (fun x hx => h x (List.mem_cons_of_mem _ hx)) time

/-- One successful group parse: a non-empty group with exactly one colon
and parseable coordinate triples contributes one keyframe at the current
time and advances the auto-assigned time by the fixed step 2. -/
theorem collectFrames_cons_parse (g : Glm) (grp posStr rotStr : List Char)
    (rest : List (List Char)) (time : ℚ) (pos eul : V3)
    (hne : grp ≠ [])
    (hsp : splitOnChar ':' grp = [posStr, rotStr])
    (hpos : fillCoords ⟨0, 0, 0⟩ 0 (splitOnChar ',' posStr) = some pos)
    (hrot : fillCoords ⟨0, 0, 0⟩ 0 (splitOnChar ',' rotStr) = some eul) :
    collectFrames g (grp :: rest) time =
      (collectFrames g rest (time + 2)).map
        (fun frames => KeyFrame.ofEuler g pos eul time :: frames) := by
  simp only [collectFrames, if_neg hne, hsp]
  rw [show List.intercalate [':'] [rotStr] = rotStr from by
    simp [List.intercalate]]
  rw [hpos, hrot]
  cases collectFrames g rest (time + 2) <;> rfl

theorem collectFrames_example (g : Glm) :
    collectFrames g ["0,0,0:0,0,0".toList, "5,0,0:0,90,0".toList] 0 =
      some [KeyFrame.ofEuler g ⟨0, 0, 0⟩ ⟨0, 0, 0⟩ 0,
            KeyFrame.ofEuler g ⟨5, 0, 0⟩ ⟨0, 90, 0⟩ 2] := by
  have hpos0 : fillCoords ⟨0, 0, 0⟩ 0 (splitOnChar ',' "0,0,0".toList) =
      some ⟨0, 0, 0⟩ := by
    rw [show splitOnChar ',' "0,0,0".toList = [['0'], ['0'], ['0']] from
      by decide]
    exact fillCoords_three _ _ _ _ _ _ stofQ_zero stofQ_zero stofQ_zero
  have hpos5 : fillCoords ⟨0, 0, 0⟩ 0 (splitOnChar ',' "5,0,0".toList) =
      some ⟨5, 0, 0⟩ := by
    rw [show splitOnChar ',' "5,0,0".toList = [['5'], ['0'], ['0']] from
      by decide]
    exact fillCoords_three _ _ _ _ _ _ stofQ_five stofQ_zero stofQ_zero
  have hrot90 : fillCoords ⟨0, 0, 0⟩ 0 (splitOnChar ',' "0,90,0".toList) =
      some ⟨0, 90, 0⟩ := by
    rw [show splitOnChar ',' "0,90,0".toList = [['0'], ['9', '0'], ['0']] from
      by decide]
    exact fillCoords_three _ _ _ _ _ _ stofQ_zero stofQ_ninety stofQ_zero
  rw [collectFrames_cons_parse g ("0,0,0:0,0,0".toList) ("0,0,0".toList)
      ("0,0,0".toList) ["5,0,0:0,90,0".toList] 0 ⟨0, 0, 0⟩ ⟨0, 0, 0⟩
      (by decide) (by decide) hpos0 hpos0,
    collectFrames_cons_parse g ("5,0,0:0,90,0".toList) ("5,0,0".toList)
      ("0,90,0".toList) [] (0 + 2) ⟨5, 0, 0⟩ ⟨0, 90, 0⟩
      (by decide) (by decide) hpos5 hrot90]
  simp only [collectFrames, Option.map_some]
  norm_num [KeyFrame.ofEuler]

/-- The auto-assigned times of a successful parse form the arithmetic
progression `t, t + 2, t + 4, …` over the parsed keyframes. -/
theorem collectFrames_times (g : Glm) :
    ∀ (groups : List (List Char)) (t : ℚ) (frames : List KeyFrame),
      collectFrames g groups t = some frames →
      List.map KeyFrame.time frames =
        (List.range frames.length).map (fun k : ℕ => t + 2 * (k : ℚ)) := by
  intro groups
  induction groups with
  | nil =>
      intro t frames h
      simp only [collectFrames, Option.some.injEq] at h
      rw [← h]
      rfl
  | cons grp rest ih =>
      intro t frames h
      by_cases hg : grp = []
      · simp only [collectFrames] at h
        rw [if_pos hg] at h
        exact ih t frames h
      · simp only [collectFrames] at h
        rw [if_neg hg] at h
        split at h
        · exact ih t frames h
        · exact ih t frames h
        · split at h
          · simp at h
          · split at h
            · simp at h
            · split at h
              · simp at h
              · next tail hc =>
                  simp only [Option.some.injEq] at h
                  rw [← h]
                  have htail := ih (t + 2) tail hc
                  simp only [List.map_cons, List.length_cons,
                    List.range_succ_eq_map, KeyFrame.ofEuler, htail,
                    List.map_map, List.cons.injEq]
                  refine ⟨by norm_num, ?_⟩
                  apply List.map_congr_left
                  intro k _
                  simp only [Function.comp]
                  push_cast
                  ring

/-- C9: `parseKeyFramesFromString` (1) parses the spec example
`"0,0,0:0,0,0;5,0,0:0,90,0"` into exactly two keyframes with positions
(0,0,0)/(5,0,0), Euler angles (0,0,0)/(0,90,0) and auto-assigned times 0
and Δ = 2, replacing the store's keyframes with them (store cleared, then
batch-added); (2) rejects the empty string with the store untouched;
(3) rejects an input all of whose semicolon groups lack a colon, store
untouched; (4) skips any individual colon-less group; and (5) assigns the
parsed keyframes the times `0, Δ, 2Δ, …` (here starting at the running
time `t`). -/
theorem parseKeyFramesFromString_contract :
    (∀ (g : Glm) (c : Ctrl),
      parseKeyFramesFromString g ("0,0,0:0,0,0;5,0,0:0,90,0".toList) c =
        some (true,
          ⟨[KeyFrame.ofEuler g ⟨0, 0, 0⟩ ⟨0, 0, 0⟩ 0,
            KeyFrame.ofEuler g ⟨5, 0, 0⟩ ⟨0, 90, 0⟩ 2],
           0, -1, c.cachedTransform, [], false⟩)) ∧
    (∀ (g : Glm) (c : Ctrl),
      parseKeyFramesFromString g [] c = some (false, c)) ∧
    (∀ (g : Glm) (c : Ctrl) (s : List Char), s ≠ [] →
      (∀ grp ∈ splitOnChar ';' s, ':' ∉ grp) →
      parseKeyFramesFromString g s c = some (false, c)) ∧
    (∀ (g : Glm) (grp : List Char) (rest : List (List Char)) (time : ℚ),
      ':' ∉ grp →
      collectFrames g (grp :: rest) time = collectFrames g rest time) ∧
    (∀ (g : Glm) (groups : List (List Char)) (t : ℚ)
        (frames : List KeyFrame),
      collectFrames g groups t = some frames →
      List.map KeyFrame.time frames =
        (List.range frames.length).map (fun k : ℕ => t + 2 * (k : ℚ))) := by
  refine ⟨?_, ?_, ?_, collectFrames_skip, collectFrames_times⟩
  · intro g c
    simp only [parseKeyFramesFromString]
    rw [if_neg (by decide),
      show splitOnChar ';' ("0,0,0:0,0,0;5,0,0:0,90,0".toList) =
        ["0,0,0:0,0,0".toList, "5,0,0:0,90,0".toList] from by decide,
      collectFrames_example]
    rfl
  · intro g c
    rfl
  · intro g c s hs hall
    simp only [parseKeyFramesFromString]
    rw [if_neg hs, collectFrames_all_colonless g _ hall 0]
    rfl

theorem parseKeyFramesFromString_contract_witness :
    parseKeyFramesFromString gW ("0,0,0:0,0,0;5,0,0:0,90,0".toList) sW =
      some (true,
        ⟨[KeyFrame.ofEuler gW ⟨0, 0, 0⟩ ⟨0, 0, 0⟩ 0,
          KeyFrame.ofEuler gW ⟨5, 0, 0⟩ ⟨0, 90, 0⟩ 2],
         0, -1, sW.cachedTransform, [], false⟩) :=
  parseKeyFramesFromString_contract.1 gW sW
